import Mathlib

/-!
KDL chain, joint and joint-array core

A shallow embedding of `kdl/chain.hpp`, `kdl/chain.cpp`, `kdl/joint.hpp` and
`kdl/jntarray.cpp`.

Conventions of the embedding
* `double` is the exact rational field `ℚ` (no rounding, no NaN, no infinities)
  wherever a property does not depend on the arithmetic of `double`; the
  section on IEEE 754 binary64 embeds `jntarray.cpp` over the data and the
  rounding of `double` for the properties that do.
* `std::size_t` is `Nat`; `std::vector<T>` is `List T` (`push_back x` is `++ [x]`).
* A member function that changes its receiver takes the receiver's old value and
  returns the new one.
* A call that can go wrong returns `Except Fault _`.
* An argument passed by const reference may alias the receiver; `Arg` keeps the
  two cases apart, so that a loop reading the argument while writing the
  receiver sees its own writes exactly when the C++ code does.
-/

namespace KDL

/-! ## Types the sources take from `frames.hpp` and `segment.hpp` -/

/-- Modelled from the spec: `Vector` of `frames.hpp` (not among the sources), a
triple of scalars; `jntarray.cpp` builds one as `Vector(t(0),t(1),t(2))`. -/
structure Vector where
  x : ℚ
  y : ℚ
  z : ℚ
  deriving DecidableEq

/-- Modelled from the spec: `Frame` of `frames.hpp` (not among the sources), "a
rigid-body 6-DoF pose (rotation + translation)": the nine coefficients of the
rotation and the translation vector. -/
structure Frame where
  M : List ℚ
  p : Vector
  deriving DecidableEq

/-- Modelled from the spec: the `Equal` overloads of the frame library
(`frames.hpp`, `utility.h`; not among the sources) that `joint.hpp` calls:
`KDL::Equal(double, double, eps)` and `KDL::Equal(Vector, Vector, eps)`.
Nothing is assumed about them. -/
structure FrameLib where
  EqualScalar : ℚ → ℚ → ℚ → Bool
  EqualVector : Vector → Vector → ℚ → Bool

/-! ## `joint.hpp` -/

/-- The enumeration `Joint::JointType` (`joint.hpp:46`). -/
inductive JointType where
  | RotAxis | RotX | RotY | RotZ | TransAxis | TransX | TransY | TransZ | Fixed
  deriving DecidableEq, Repr

/-- The enumerator `None=Fixed` (`joint.hpp:46`). -/
def JointType.None : JointType := JointType.Fixed

/-- The private fields of `class Joint` (`joint.hpp:219-234`). -/
structure Joint where
  name : String
  type : JointType
  scale : ℚ
  offset : ℚ
  inertia : ℚ
  damping : ℚ
  stiffness : ℚ
  upper_position_limit : ℚ
  lower_position_limit : ℚ
  home_position : ℚ
  axis : Vector
  origin : Vector
  joint_pose : Frame
  q_previous : ℚ
  deriving DecidableEq

/-- The accessor `Joint::getType` (`joint.hpp:177`). -/
def Joint.getType (self : Joint) : JointType := self.type

/-- The function `Equal(const Joint&, const Joint&, double)` (`joint.hpp:245-259`). -/
def Joint.Equal (L : FrameLib) (a b : Joint) (eps : ℚ) : Bool :=
  a.name == b.name
    && a.type == b.type
    && L.EqualScalar a.scale b.scale eps
    && L.EqualScalar a.offset b.offset eps
    && L.EqualScalar a.inertia b.inertia eps
    && L.EqualScalar a.damping b.damping eps
    && L.EqualScalar a.stiffness b.stiffness eps
    && L.EqualScalar a.upper_position_limit b.upper_position_limit eps
    && L.EqualScalar a.lower_position_limit b.lower_position_limit eps
    && L.EqualScalar a.home_position b.home_position eps
    && L.EqualVector a.axis b.axis eps
    && L.EqualVector a.origin b.origin eps

/-! ## `segment.hpp` (not among the sources) -/

/-- Modelled from the spec: `Segment` of `segment.hpp` (not among the sources):
it "owns exactly one Joint plus a fixed trailing 6-DoF offset transform" and is
"copied by value when added to a Chain". -/
structure Segment where
  joint : Joint
  f_tip : Frame
  deriving DecidableEq

/-- Modelled from the spec: `Segment::getJoint` of `segment.hpp` (not among the
sources), the joint the segment owns. -/
def Segment.getJoint (self : Segment) : Joint := self.joint

/-! ## `chain.hpp`, `chain.cpp` -/

/-- What a call can end in instead of a result. -/
inductive Fault where
  /-- An unchecked `operator[]` outside the vector: undefined behaviour. -/
  | unchecked_index
  /-- The exception `std::out_of_range` of `std::vector::at`. -/
  | out_of_range
  /-- The loop was still running when the step budget ran out. -/
  | out_of_fuel
  deriving DecidableEq, Repr

/-- The data members of `class Chain` (`chain.hpp:37-42`). -/
structure Chain where
  nrOfJoints : Nat
  nrOfSegments : Nat
  segments : List Segment
  joints : List Joint
  deriving DecidableEq

namespace Chain

/-- The default constructor `Chain::Chain()` (`chain.cpp:27-33`). -/
def ctor : Chain :=
  { nrOfJoints := 0, nrOfSegments := 0, segments := [], joints := [] }

/-- The accessor `Chain::getNrOfJoints` (`chain.hpp:73`). -/
def getNrOfJoints (self : Chain) : Nat := self.nrOfJoints

/-- The accessor `Chain::getNrOfSegments` (`chain.hpp:78`). -/
def getNrOfSegments (self : Chain) : Nat := self.nrOfSegments

/-- The accessor `Chain::getSegment` (`chain.cpp:74-82`): `segments[nr]`, unchecked. -/
def getSegment (self : Chain) (nr : Nat) : Except Fault Segment :=
  match self.segments[nr]? with
  | some s => .ok s
  | none => .error Fault.unchecked_index

/-- The accessor `Chain::getJoint` (`chain.cpp:88-91`): `joints.at(nr)`, checked. -/
def getJoint (self : Chain) (nr : Nat) : Except Fault Joint :=
  match self.joints[nr]? with
  | some j => .ok j
  | none => .error Fault.out_of_range

/-- The accessor `Chain::getJoints` (`chain.cpp:93-96`). -/
def getJoints (self : Chain) : List Joint := self.joints

/-- The member `Chain::addSegment` (`chain.cpp:57-66`). -/
def addSegment (self : Chain) (segment : Segment) : Chain :=
  let pushed : Chain :=
    { self with
        segments := self.segments ++ [segment]
        nrOfSegments := self.nrOfSegments + 1 }
  if segment.getJoint.getType != JointType.Fixed then
    { pushed with
        joints := pushed.joints ++ [segment.getJoint]
        nrOfJoints := pushed.nrOfJoints + 1 }
  else
    pushed

end Chain

/-- An argument of type `const Chain&`: another chain object, or the receiver of
the call itself. -/
inductive Arg where
  | other (chain : Chain)
  | self

/-- The chain the reference denotes while the receiver holds `self`. -/
def Arg.read (arg : Arg) (self : Chain) : Chain :=
  match arg with
  | Arg.other chain => chain
  | Arg.self => self

namespace Chain

/-- The loop `for(i; i<arg.getNrOfSegments(); i++) addSegment(arg.getSegment(i));`
shared by the copy constructor (`chain.cpp:41-42`), `operator=` (`chain.cpp:51-52`)
and `addChain` (`chain.cpp:70-71`), from loop counter `i` and receiver `self`.
The bound is read anew before every iteration; `fuel` bounds the number of
times the loop test is evaluated. When the argument is the receiver itself the
segment is read, by value, before `addSegment` pushes it. -/
def appendLoop : Nat → Arg → Nat → Chain → Except Fault Chain
  | 0, _, _, _ => .error Fault.out_of_fuel
  | fuel + 1, arg, i, self =>
    if i < (arg.read self).getNrOfSegments then
      match (arg.read self).getSegment i with
      | .ok segment => appendLoop fuel arg (i + 1) (self.addSegment segment)
      | .error e => .error e
    else
      .ok self

/-- The copy constructor `Chain::Chain(const Chain& in)` (`chain.cpp:35-43`). -/
def copy (fuel : Nat) (inp : Chain) : Except Fault Chain :=
  appendLoop fuel (Arg.other inp) 0
    { nrOfJoints := 0, nrOfSegments := 0, segments := [], joints := [] }

/-- The member `Chain::operator=` (`chain.cpp:45-55`). -/
def assign (fuel : Nat) (self : Chain) (arg : Arg) : Except Fault Chain :=
  appendLoop fuel arg 0
    { self with nrOfJoints := 0, nrOfSegments := 0, segments := [], joints := [] }

/-- The member `Chain::addChain` (`chain.cpp:68-72`). -/
def addChain (fuel : Nat) (self : Chain) (chain : Arg) : Except Fault Chain :=
  appendLoop fuel chain 0 self

/-- The unchecked `operator[]` of `std::vector`, which `Equal` on chains applies
to the public members `segments` and `joints` (`chain.hpp:113`, `chain.hpp:117`). -/
def index {α : Type} (v : List α) (i : Nat) : Except Fault α :=
  match v[i]? with
  | some x => .ok x
  | none => .error Fault.unchecked_index

/-- The two loops of `Equal` on chains (`chain.hpp:111-114` over `segments` with
`Equal` on segments, `chain.hpp:115-118` over `joints` with `Equal` on joints):
`for (i = 0, last = va.size(); i != last; ++i) if (!Equal(va[i], vb[i], eps)) return false;`
with `todo` iterations left before `i` reaches `last`. The result is `false`
when the loop returns `false` and `true` when it runs to its end. -/
def EqualLoop {α : Type} (elemEqual : α → α → ℚ → Bool) (va vb : List α) (eps : ℚ) :
    (todo i : Nat) → Except Fault Bool
  | 0, _ => .ok true
  | todo + 1, i =>
    match index va i, index vb i with
    | .ok x, .ok y =>
      if !elemEqual x y eps then .ok false
      else EqualLoop elemEqual va vb eps todo (i + 1)
    | .error e, _ => .error e
    | _, .error e => .error e

/-- The function `Equal(const Chain&, const Chain&, double)` (`chain.hpp:108-120`).
`SegmentEqual` is `Equal(const Segment&, const Segment&, double)` of
`segment.hpp`, which is not among the sources. -/
def Equal (L : FrameLib) (SegmentEqual : Segment → Segment → ℚ → Bool)
    (a b : Chain) (eps : ℚ) : Except Fault Bool :=
  if a.nrOfJoints != b.nrOfJoints || a.nrOfSegments != b.nrOfSegments
      || a.segments.length != b.segments.length
      || a.joints.length != b.joints.length then
    .ok false
  else
    match EqualLoop SegmentEqual a.segments b.segments eps a.segments.length 0 with
    | .error e => .error e
    | .ok false => .ok false
    | .ok true =>
      match EqualLoop (Joint.Equal L) a.joints b.joints eps a.joints.length 0 with
      | .error e => .error e
      | .ok false => .ok false
      | .ok true => .ok true

end Chain

end KDL

/-! ## The parts of Eigen that `jntarray.cpp` uses -/

namespace Eigen

/-- Modelled from the spec: Eigen's scalar test `isMuchSmallerThan(x, y, prec)`
(the Eigen library is not among the sources), `abs(x) <= abs(y) * prec`. -/
def isMuchSmallerThan (x y prec : ℚ) : Bool :=
  decide (|x| ≤ |y| * prec)

/-- Modelled from the spec: Eigen's `isZero(prec)` on a `VectorXd` (the Eigen
library is not among the sources): every coefficient is much smaller than `1`
within `prec`, that is "the maximum absolute elementwise difference is ≤ ε"
when applied to a difference. -/
def isZero (v : List ℚ) (prec : ℚ) : Bool :=
  v.all (fun x => isMuchSmallerThan x 1 prec)

/-- Modelled from the spec: Eigen's coefficient-wise difference of two `VectorXd`
of one size (the Eigen library is not among the sources). -/
def sub (a b : List ℚ) (_h : a.length = b.length) : List ℚ :=
  List.zipWith (fun x y => x - y) a b

end Eigen

namespace KDL

/-! ## `jntarray.cpp` -/

/-- The class `JntArray`: its one data member `data`, an `Eigen::VectorXd`. -/
structure JntArray where
  data : List ℚ
  deriving DecidableEq

namespace JntArray

/-- The accessor `JntArray::rows` (`jntarray.cpp:138-141`). -/
def rows (self : JntArray) : Nat := self.data.length

/-- The accessor `JntArray::size` (`jntarray.cpp:143-146`). -/
def size (self : JntArray) : Nat := self.data.length

/-- The element access `JntArray::operator()` and `JntArray::operator[]`
(`jntarray.cpp:118-136`): `data(i)`, unchecked. -/
def get (self : JntArray) (i : Nat) : Except Fault ℚ :=
  match self.data[i]? with
  | some x => .ok x
  | none => .error Fault.unchecked_index

/-- The function `Equal(const JntArray&, const JntArray&, double)`
(`jntarray.cpp:184-189`). -/
def Equal (src1 src2 : JntArray) (eps : ℚ) : Bool :=
  if h : src1.rows ≠ src2.rows then
    false
  else
    Eigen.isZero (Eigen.sub src1.data src2.data (not_not.mp h)) eps

end JntArray

/-! ## The specification's vocabulary -/

/-- The specification's "segments whose joint type is not Fixed", in chain order. -/
def nonFixedSegments (segs : List Segment) : List Segment :=
  segs.filter (fun s => decide (s.getJoint.getType ≠ JointType.Fixed))

/-- The chain "built by appending segments s₀…sₙ₋₁": `addSegment` on each in
order, starting from the empty chain. -/
def Chain.build (segs : List Segment) : Chain :=
  segs.foldl Chain.addSegment Chain.ctor

/-- The chains that the operations of the class produce: the constructors,
`addSegment`, `addChain` and `operator=`, the two last with another such chain
or the receiver itself as argument, whenever the call returns. -/
inductive Chain.Reachable : Chain → Prop
  | ctor : Chain.Reachable Chain.ctor
  | addSegment (c : Chain) (s : Segment) :
      Chain.Reachable c → Chain.Reachable (c.addSegment s)
  | copy (fuel : Nat) (inp c' : Chain) :
      Chain.Reachable inp → Chain.copy fuel inp = .ok c' → Chain.Reachable c'
  | addChain (fuel : Nat) (c : Chain) (arg : Arg) (c' : Chain) :
      Chain.Reachable c → (∀ d, arg = Arg.other d → Chain.Reachable d) →
      Chain.addChain fuel c arg = .ok c' → Chain.Reachable c'
  | assign (fuel : Nat) (c : Chain) (arg : Arg) (c' : Chain) :
      Chain.Reachable c → (∀ d, arg = Arg.other d → Chain.Reachable d) →
      Chain.assign fuel c arg = .ok c' → Chain.Reachable c'

/-- The class invariant: each counter is the size of its container, and the
joint container holds the joints of the non-Fixed segments in order. -/
structure Chain.Inv (c : Chain) : Prop where
  segs : c.nrOfSegments = c.segments.length
  jnts : c.nrOfJoints = c.joints.length
  derived : c.joints = (nonFixedSegments c.segments).map Segment.getJoint

/-- The specification's equality of two chains: "their segment counts and joint
counts match and every segment pair and every joint pair are pairwise equal",
read through the accessors of the class. -/
def Chain.SpecEqual (L : FrameLib) (SegmentEqual : Segment → Segment → ℚ → Bool)
    (a b : Chain) (eps : ℚ) : Prop :=
  a.getNrOfSegments = b.getNrOfSegments ∧ a.getNrOfJoints = b.getNrOfJoints ∧
  (∀ i, i < a.getNrOfSegments →
    ∃ x y, a.getSegment i = .ok x ∧ b.getSegment i = .ok y ∧ SegmentEqual x y eps = true) ∧
  (∀ k, k < a.getNrOfJoints →
    ∃ x y, a.getJoint k = .ok x ∧ b.getJoint k = .ok y ∧ Joint.Equal L x y eps = true)

/-! ## Concrete data for the scenarios of the specification -/

namespace Example

/-- A joint of the given type with the default parameters of the constructors
declared in `joint.hpp` (scale 1, everything else 0). -/
def joint (type : JointType) : Joint :=
  { name := "", type := type, scale := 1, offset := 0, inertia := 0, damping := 0,
    stiffness := 0, upper_position_limit := 0, lower_position_limit := 0,
    home_position := 0, axis := ⟨0, 0, 0⟩, origin := ⟨0, 0, 0⟩,
    joint_pose := ⟨[1, 0, 0, 0, 1, 0, 0, 0, 1], ⟨0, 0, 0⟩⟩, q_previous := 0 }

/-- A segment around `joint type` with the identity as trailing offset. -/
def segment (type : JointType) : Segment :=
  { joint := joint type, f_tip := ⟨[1, 0, 0, 0, 1, 0, 0, 0, 1], ⟨0, 0, 0⟩⟩ }

/-- The chain of the specification's scenario: joint types `[RotZ, Fixed, TransX]`. -/
def chain3 : Chain :=
  ((Chain.ctor.addSegment (segment JointType.RotZ)).addSegment
    (segment JointType.Fixed)).addSegment (segment JointType.TransX)

/-- A chain of two segments, joint types `[Fixed, RotX]`. -/
def chain2 : Chain :=
  (Chain.ctor.addSegment (segment JointType.Fixed)).addSegment (segment JointType.RotX)

/-- A chain made only of Fixed-joint segments. -/
def chainFixed : Chain :=
  (Chain.ctor.addSegment (segment JointType.Fixed)).addSegment (segment JointType.Fixed)

/-- A frame library whose scalar `Equal` is `|a - b| < eps` and whose vector
`Equal` compares the three components with it. -/
def lib : FrameLib :=
  { EqualScalar := fun a b eps => decide (|a - b| < eps)
    EqualVector := fun a b eps =>
      decide (|a.x - b.x| < eps) && decide (|a.y - b.y| < eps) && decide (|a.z - b.z| < eps) }

/-- An `Equal` on segments: the joints are `Equal` and so are the offsets'
translations. -/
def segmentEqual (a b : Segment) (eps : ℚ) : Bool :=
  Joint.Equal lib a.joint b.joint eps && lib.EqualVector a.f_tip.p b.f_tip.p eps

end Example

end KDL

/-! ## More of Eigen: construction, resizing and arithmetic of a `VectorXd` -/

namespace Eigen

/-- Modelled from the spec: a `VectorXd` of `n` coefficients that nothing has
written yet (`VectorXd(n)`, `resize(n)`; the Eigen library is not among the
sources); `uninit` gives the values the fresh storage happens to hold. -/
def resize (n : Nat) (uninit : Nat → ℚ) : List ℚ :=
  (List.range n).map uninit

/-- Modelled from the spec: Eigen's `setZero()` (the Eigen library is not among
the sources): every coefficient becomes 0, the size stays. -/
def setZero (v : List ℚ) : List ℚ :=
  v.map (fun _ => 0)

/-- Modelled from the spec: Eigen's `VectorXd::Zero(n)` (the Eigen library is not
among the sources), `n` coefficients equal to 0. -/
def Zero (n : Nat) : List ℚ :=
  List.replicate n 0

/-- Modelled from the spec: Eigen's `conservativeResizeLike(other)` on a
`VectorXd` (the Eigen library is not among the sources): the vector takes the
size of `other`, keeps its coefficients below both sizes, and takes the
coefficients of `other` at the indices it did not have. -/
def conservativeResizeLike (v other : List ℚ) : List ℚ :=
  v.take other.length ++ other.drop v.length

/-- Eigen's assignment `dst = rhs` to a `VectorXd` (the Eigen library is not
among the sources; this is the behaviour its documentation states for a
dynamic-size destination): the destination is resized to the size of the
right-hand side and takes its coefficients, whatever it held. -/
def assign (_dst rhs : List ℚ) : List ℚ :=
  rhs

/-- Modelled from the spec: Eigen's coefficient-wise sum of two `VectorXd` of one
size (the Eigen library is not among the sources). -/
def add (a b : List ℚ) (_h : a.length = b.length) : List ℚ :=
  List.zipWith (fun x y => x + y) a b

/-- Modelled from the spec: Eigen's product `factor * v` of a scalar and a
`VectorXd` (the Eigen library is not among the sources). -/
def scale (factor : ℚ) (v : List ℚ) : List ℚ :=
  v.map (fun x => factor * x)

/-- Modelled from the spec: Eigen's quotient `v / factor` of a `VectorXd` by a
scalar (the Eigen library is not among the sources). -/
def div (v : List ℚ) (factor : ℚ) : List ℚ :=
  v.map (fun x => x / factor)

/-- Modelled from the spec: Eigen's `lazyProduct` of a `Matrix<double,6,Dynamic>`,
given as the list of its columns, and a `VectorXd` of as many coefficients as
the matrix has columns (the Eigen library is not among the sources):
coefficient `r` of the result is the sum over the columns `j` of
`m(r, j) * v(j)`. -/
def lazyProduct (m : List (Fin 6 → ℚ)) (v : List ℚ) (_h : m.length = v.length) :
    Fin 6 → ℚ :=
  fun r => (List.zipWith (fun col x => col r * x) m v).sum

/-- Modelled from the spec: Eigen's assignment `Map(buffer) = src` into a view
of a buffer of the size of `src` (the Eigen library is not among the sources):
every element of the buffer is overwritten by the coefficient of `src` at its
index. -/
def assignMap (buffer src : List ℚ) (_h : buffer.length = src.length) : List ℚ :=
  List.zipWith (fun _ x => x) buffer src

end Eigen

namespace KDL

/-! ## `jntarray.cpp`: construction, resizing, arithmetic -/

namespace JntArray

/-- The constructor `JntArray::JntArray(std::size_t _size)` (`jntarray.cpp:32-36`):
`data(_size)`, then `data.setZero()`. -/
def ctorSize (_size : Nat) (uninit : Nat → ℚ) : JntArray :=
  { data := Eigen.setZero (Eigen.resize _size uninit) }

/-- The constructor `JntArray::JntArray(std::initializer_list<double> l)`
(`jntarray.cpp:38-44`): `data.resize(l.size())`, then `data[idx++] = val` for
every `val` of `l` in order, from `idx = 0`. -/
def ctorList (l : List ℚ) (uninit : Nat → ℚ) : JntArray :=
  let start : List ℚ × Nat := (Eigen.resize l.length uninit, 0)
  { data := (l.foldl (fun st val => (st.1.set st.2 val, st.2 + 1)) start).1 }

/-- The constructor `JntArray::JntArray(const std::vector<double>& v)`
(`jntarray.cpp:45-48`): `data`, empty so far, is assigned a view of the
elements of `v`. -/
def ctorStdVector (v : List ℚ) : JntArray :=
  { data := Eigen.assign [] v }

/-- The member `JntArray::resize` (`jntarray.cpp:86-89`). -/
def resize (self : JntArray) (newSize : Nat) : JntArray :=
  { self with data := Eigen.conservativeResizeLike self.data (Eigen.Zero newSize) }

/-- The member `JntArray::toStdVector` (`jntarray.cpp:111-116`): a
`std::vector<double>` of `data.size()` zeros, overwritten through a view by
`data`. -/
def toStdVector (self : JntArray) : List ℚ :=
  let v : List ℚ := List.replicate self.data.length 0
  Eigen.assignMap v self.data (List.length_replicate _ _)

end JntArray

/-- The function `Add` (`jntarray.cpp:153-156`), returning the new `dest`.
Eigen's sum wants operands of one size (`none` otherwise). -/
def Add (src1 src2 dest : JntArray) : Option JntArray :=
  if h : src1.data.length = src2.data.length then
    some { dest with data := Eigen.assign dest.data (Eigen.add src1.data src2.data h) }
  else
    none

/-- The function `Subtract` (`jntarray.cpp:158-161`), returning the new `dest`.
Eigen's difference wants operands of one size (`none` otherwise). -/
def Subtract (src1 src2 dest : JntArray) : Option JntArray :=
  if h : src1.data.length = src2.data.length then
    some { dest with data := Eigen.assign dest.data (Eigen.sub src1.data src2.data h) }
  else
    none

/-- The function `Multiply` (`jntarray.cpp:163-166`), returning the new `dest`. -/
def Multiply (src : JntArray) (factor : ℚ) (dest : JntArray) : JntArray :=
  { dest with data := Eigen.assign dest.data (Eigen.scale factor src.data) }

/-- The function `Divide` (`jntarray.cpp:168-171`), returning the new `dest`. -/
def Divide (src : JntArray) (factor : ℚ) (dest : JntArray) : JntArray :=
  { dest with data := Eigen.assign dest.data (Eigen.div src.data factor) }

/-- The function `SetToZero` (`jntarray.cpp:179-182`), returning the new `array`. -/
def SetToZero (array : JntArray) : JntArray :=
  { array with data := Eigen.setZero array.data }

/-- Modelled from the spec: `Twist` of `frames.hpp` (not among the sources), "a
6-component spatial velocity (3 linear + 3 angular)"; `jntarray.cpp` builds one
as `Twist(Vector, Vector)`, linear part first. -/
structure Twist where
  vel : Vector
  rot : Vector
  deriving DecidableEq

/-- Modelled from the spec: `Jacobian` of `jacobian.hpp` (not among the sources),
"a 6×N Jacobian matrix": its member `data`, an Eigen matrix of six rows, as the
list of its `N` columns. -/
structure Jacobian where
  data : List (Fin 6 → ℚ)

/-- The number of columns `N` of the Jacobian. -/
def Jacobian.columns (jac : Jacobian) : Nat := jac.data.length

/-- The coefficient `J(r, j)` of the Jacobian (0 outside the matrix). -/
def Jacobian.coeff (jac : Jacobian) (r : Fin 6) (j : Nat) : ℚ :=
  match jac.data[j]? with
  | some col => col r
  | none => 0

/-- The function `MultiplyJacobian` (`jntarray.cpp:173-177`), returning the new
`dest`. Eigen's product wants as many columns as the vector has coefficients
(`none` otherwise). -/
def MultiplyJacobian (jac : Jacobian) (src : JntArray) (_dest : Twist) : Option Twist :=
  if h : jac.data.length = src.data.length then
    let t : Fin 6 → ℚ := Eigen.lazyProduct jac.data src.data h
    some (Twist.mk (Vector.mk (t 0) (t 1) (t 2)) (Vector.mk (t 3) (t 4) (t 5)))
  else
    none

/-! ## The specification's vocabulary, continued -/

/-- The specification's "matrix product of a 6×N Jacobian and the N-length
joint-velocity vector": component `r` is the sum over `j < N` of
`J(r, j) * v[j]`. -/
def specProduct (jac : Jacobian) (v : JntArray) (r : Fin 6) : ℚ :=
  ∑ j ∈ Finset.range v.size, jac.coeff r j * v.data.getD j 0

/-- What `Equal` on chains (`chain.hpp:108-120`) would be with the two
comparisons of container sizes left out of its guard, so that only the cached
counters are compared before the loops. -/
def Chain.EqualByCounters (L : FrameLib) (SegmentEqual : Segment → Segment → ℚ → Bool)
    (a b : Chain) (eps : ℚ) : Except Fault Bool :=
  if a.nrOfJoints != b.nrOfJoints || a.nrOfSegments != b.nrOfSegments then
    .ok false
  else
    match Chain.EqualLoop SegmentEqual a.segments b.segments eps a.segments.length 0 with
    | .error e => .error e
    | .ok false => .ok false
    | .ok true =>
      match Chain.EqualLoop (Joint.Equal L) a.joints b.joints eps a.joints.length 0 with
      | .error e => .error e
      | .ok false => .ok false
      | .ok true => .ok true

namespace Example

/-- The 6×6 Jacobian whose column `j` is the `j`-th standard basis vector. -/
def jacobianId : Jacobian :=
  { data := (List.range 6).map (fun j => fun r => if r.val = j then 1 else 0) }

/-- The velocity vector `[1, 2, ..., 6]`. -/
def velocity6 : JntArray :=
  { data := [1, 2, 3, 4, 5, 6] }

/-- A chain of one segment with a `RotZ` joint. -/
def chain1 : Chain :=
  Chain.ctor.addSegment (segment JointType.RotZ)

end Example

end KDL

namespace KDL

/-- The specification's reading of a joint-space vector against a chain: "index
`i` in the vector corresponds to the `i`-th actuated joint in chain order";
the list of the actuated joints, each with the entry of `q` at its index. -/
def Chain.jointValues (c : Chain) (q : JntArray) : List (Joint × ℚ) :=
  c.getJoints.zip q.data

end KDL

/-! ## IEEE 754 binary64, the `double` of `jntarray.cpp`

The definitions above compute with exact rationals. Where a property of
`jntarray.cpp` depends on rounding, overflow, infinities or NaN, the same
functions are embedded once more over the data and the arithmetic of `double`
(round to nearest, ties to even). -/

namespace KDL

namespace IEEE

/-- A `double`: a finite datum `(-1)^neg * mag` with `0 ≤ mag` (zero keeps its
sign), an infinity, or a NaN. -/
inductive Double where
  | fin (neg : Bool) (mag : ℚ)
  | inf (neg : Bool)
  | nan
  deriving DecidableEq

/-- Rounding of a rational to the nearest integer, ties to the even one. -/
def roundHalfEven (t : ℚ) : ℤ :=
  if t - ⌊t⌋ < 1 / 2 then ⌊t⌋
  else if 1 / 2 < t - ⌊t⌋ then ⌊t⌋ + 1
  else if ⌊t⌋ % 2 = 0 then ⌊t⌋
  else ⌊t⌋ + 1

/-- The exponent of the binade of `q ≠ 0`, `⌊log₂ |q|⌋`, and `-1022` for the
subnormal range below `2^-1022`. -/
def exponent (q : ℚ) : ℤ :=
  max (Int.log 2 |q|) (-1022)

/-- The spacing of the doubles in the binade of `q`: 52 fraction bits. -/
def ulp (q : ℚ) : ℚ :=
  2 ^ (exponent q - 52)

/-- The magnitude of `q` rounded to 53 significant bits (fewer in the subnormal
range), before the test for overflow. -/
def roundMag (q : ℚ) : ℚ :=
  (roundHalfEven (|q| / ulp q) : ℚ) * ulp q

/-- The `double` that an operation with exact result `q` delivers: `q` rounded
to nearest, an infinity when the rounded magnitude reaches `2^1024`, a zero
with the sign of `q` on underflow; an exact zero takes the sign `zeroNeg`. -/
def round (q : ℚ) (zeroNeg : Bool) : Double :=
  if q = 0 then Double.fin zeroNeg 0
  else if (2 : ℚ) ^ (1024 : ℤ) ≤ roundMag q then Double.inf (decide (q < 0))
  else Double.fin (decide (q < 0)) (roundMag q)

/-- The rationals that are values of a `double`: rounding leaves them as they
are. -/
def isDouble (q : ℚ) : Prop :=
  q = 0 ∨ (roundMag q = |q| ∧ |q| < (2 : ℚ) ^ (1024 : ℤ))

/-- The rationals on the grid of the doubles: the integer multiples of the
least positive double `2^-1074`. -/
def onGrid (q : ℚ) : Prop :=
  ∃ k : ℤ, q = (k : ℚ) * (2 : ℚ) ^ (-1074 : ℤ)

namespace Double

/-- The number `0.0`. -/
def zero : Double := fin false 0

/-- The number `1.0`, `Scalar(1)` in Eigen. -/
def one : Double := fin false 1

/-- The value of a finite datum (0 for the others). -/
def val : Double → ℚ
  | fin neg mag => if neg then -mag else mag
  | inf _ => 0
  | nan => 0

/-- The test `std::isfinite`. -/
def isFinite : Double → Bool
  | fin _ _ => true
  | inf _ => false
  | nan => false

/-- The unary minus: the sign bit is flipped. -/
def neg : Double → Double
  | fin s m => fin (!s) m
  | inf s => inf (!s)
  | nan => nan

/-- The function `std::abs` (`numext::abs`): the sign bit is cleared. -/
def abs : Double → Double
  | fin _ m => fin false m
  | inf _ => inf false
  | nan => nan

/-- The sum `x + y` of two doubles. -/
def add : Double → Double → Double
  | nan, _ => nan
  | _, nan => nan
  | inf s, inf t => if s = t then inf s else nan
  | inf s, fin _ _ => inf s
  | fin _ _, inf t => inf t
  | fin s p, fin t q => round ((fin s p).val + (fin t q).val) (s && t)

/-- The difference `x - y` of two doubles. -/
def sub (x y : Double) : Double :=
  add x (neg y)

/-- The product `x * y` of two doubles. -/
def mul : Double → Double → Double
  | nan, _ => nan
  | _, nan => nan
  | inf s, inf t => inf (xor s t)
  | inf s, fin t q => if q = 0 then nan else inf (xor s t)
  | fin s p, inf t => if p = 0 then nan else inf (xor s t)
  | fin s p, fin t q => round ((fin s p).val * (fin t q).val) (xor s t)

/-- The quotient `x / y` of two doubles. -/
def div : Double → Double → Double
  | nan, _ => nan
  | _, nan => nan
  | inf _, inf _ => nan
  | inf s, fin t _ => inf (xor s t)
  | fin s _, inf t => fin (xor s t) 0
  | fin s p, fin t q =>
    if q = 0 then (if p = 0 then nan else inf (xor s t))
    else round ((fin s p).val / (fin t q).val) (xor s t)

/-- The comparison `x <= y` of two doubles: false when either is a NaN. -/
def le : Double → Double → Bool
  | nan, _ => false
  | _, nan => false
  | inf s, inf t => s || !t
  | inf s, fin _ _ => s
  | fin _ _, inf t => !t
  | fin s p, fin t q => decide ((fin s p).val ≤ (fin t q).val)

end Double

/-- Modelled from the spec: Eigen's scalar test `isMuchSmallerThan(x, y, prec)`
on doubles (the Eigen library is not among the sources),
`abs(x) <= abs(y) * prec`. -/
def isMuchSmallerThan (x y prec : Double) : Bool :=
  Double.le x.abs (Double.mul y.abs prec)

/-- Modelled from the spec: Eigen's `isZero(prec)` on a `VectorXd` of doubles
(the Eigen library is not among the sources): every coefficient is much
smaller than `1` within `prec`. -/
def isZero (v : List Double) (prec : Double) : Bool :=
  v.all (fun x => isMuchSmallerThan x Double.one prec)

/-- Modelled from the spec: Eigen's coefficient-wise sum of two `VectorXd` of
doubles of one size (the Eigen library is not among the sources). -/
def vadd (a b : List Double) (_h : a.length = b.length) : List Double :=
  List.zipWith Double.add a b

/-- Modelled from the spec: Eigen's coefficient-wise difference of two
`VectorXd` of doubles of one size (the Eigen library is not among the
sources). -/
def vsub (a b : List Double) (_h : a.length = b.length) : List Double :=
  List.zipWith Double.sub a b

/-- Modelled from the spec: Eigen's product `factor * v` of a double and a
`VectorXd` of doubles (the Eigen library is not among the sources). -/
def vscale (factor : Double) (v : List Double) : List Double :=
  v.map (fun x => Double.mul factor x)

/-- Modelled from the spec: Eigen's quotient `v / factor` of a `VectorXd` of
doubles by a double (the Eigen library is not among the sources). -/
def vdiv (v : List Double) (factor : Double) : List Double :=
  v.map (fun x => Double.div x factor)

/-- Eigen's assignment `dst = rhs` to a `VectorXd` of doubles: the destination
is resized to the size of the right-hand side and takes its coefficients. -/
def assign (_dst rhs : List Double) : List Double :=
  rhs

/-- The class `JntArray` over doubles: its data member `data`. -/
structure JntArray where
  data : List Double
  deriving DecidableEq

/-- The accessor `JntArray::rows` (`jntarray.cpp:138-141`). -/
def JntArray.rows (self : JntArray) : Nat := self.data.length

/-- The accessor `JntArray::size` (`jntarray.cpp:143-146`). -/
def JntArray.size (self : JntArray) : Nat := self.data.length

/-- The function `Equal(const JntArray&, const JntArray&, double)`
(`jntarray.cpp:184-189`) over doubles. -/
def Equal (src1 src2 : JntArray) (eps : Double) : Bool :=
  if h : src1.rows ≠ src2.rows then
    false
  else
    isZero (vsub src1.data src2.data (not_not.mp h)) eps

/-- The function `Add` (`jntarray.cpp:153-156`) over doubles, returning the new
`dest`; `none` when the operands differ in size. -/
def Add (src1 src2 dest : JntArray) : Option JntArray :=
  if h : src1.data.length = src2.data.length then
    some { dest with data := assign dest.data (vadd src1.data src2.data h) }
  else
    none

/-- The function `Subtract` (`jntarray.cpp:158-161`) over doubles, returning the
new `dest`; `none` when the operands differ in size. -/
def Subtract (src1 src2 dest : JntArray) : Option JntArray :=
  if h : src1.data.length = src2.data.length then
    some { dest with data := assign dest.data (vsub src1.data src2.data h) }
  else
    none

/-- The function `Multiply` (`jntarray.cpp:163-166`) over doubles, returning the
new `dest`. -/
def Multiply (src : JntArray) (factor : Double) (dest : JntArray) : JntArray :=
  { dest with data := assign dest.data (vscale factor src.data) }

/-- The function `Divide` (`jntarray.cpp:168-171`) over doubles, returning the
new `dest`. -/
def Divide (src : JntArray) (factor : Double) (dest : JntArray) : JntArray :=
  { dest with data := assign dest.data (vdiv src.data factor) }

/-! ### The vocabulary of the round-trip properties over doubles -/

/-- Every element of the array is a finite number and a double. -/
def JntArray.Finite (a : JntArray) : Prop :=
  ∀ x ∈ a.data, x.isFinite = true ∧ isDouble x.val

/-- No element of the array is an infinity or a NaN: the operation that wrote
it did not overflow. -/
def JntArray.NoOverflow (a : JntArray) : Prop :=
  ∀ x ∈ a.data, x.isFinite = true

/-- Index by index, `r` and `a` hold finite numbers of one value (`+0` and `-0`
are one value). -/
def SameValues (r a : JntArray) : Prop :=
  ∀ p ∈ r.data.zip a.data, p.1.isFinite = true ∧ p.2.isFinite = true ∧ p.1.val = p.2.val

/-- Every sum `a[i] + b[i]` is a double: `Add` computes it without rounding. -/
def ExactSums (a b : JntArray) : Prop :=
  ∀ p ∈ a.data.zip b.data, isDouble (p.1.val + p.2.val)

/-- Every product `k * a[i]` is a double: `Multiply` computes it without
rounding. -/
def ExactProducts (k : Double) (a : JntArray) : Prop :=
  ∀ x ∈ a.data, isDouble (k.val * x.val)

/-- No product `k * a[i]` and no quotient back falls into the subnormal range:
every `a[i]` is zero or has `|a[i]| >= 2^-1021` and `|k * a[i]| >= 2^-1022`. -/
def NoUnderflow (k : Double) (a : JntArray) : Prop :=
  ∀ x ∈ a.data, x.val = 0 ∨
    ((2 : ℚ) ^ (-1021 : ℤ) ≤ |x.val| ∧ (2 : ℚ) ^ (-1022 : ℤ) ≤ |k.val * x.val|)

namespace Example

/-- The joint array `[1.0]`. -/
def one : JntArray := { data := [Double.fin false 1] }

/-- The joint array `[2.0]`. -/
def two : JntArray := { data := [Double.fin false 2] }

/-- The joint array `[2^54]`. -/
def big : JntArray := { data := [Double.fin false ((2 : ℚ) ^ 54)] }

/-- The joint array `[2^1023]`. -/
def huge : JntArray := { data := [Double.fin false ((2 : ℚ) ^ (1023 : ℤ))] }

/-- The joint array `[0.1]`: the double nearest to one tenth. -/
def tenth : JntArray := { data := [Double.fin false (3602879701896397 / (2 : ℚ) ^ 55)] }

/-- The empty joint array. -/
def empty : JntArray := { data := [] }

end Example

end IEEE

end KDL

namespace KDL

/-! ## Lemmas on `addSegment` and the append loop -/

theorem nonFixedSegments_append (xs ys : List Segment) :
    nonFixedSegments (xs ++ ys) = nonFixedSegments xs ++ nonFixedSegments ys := by
  simp [nonFixedSegments]

theorem addSegment_eq (c : Chain) (s : Segment) :
    c.addSegment s =
      { nrOfJoints := c.nrOfJoints + (nonFixedSegments [s]).length
        nrOfSegments := c.nrOfSegments + 1
        segments := c.segments ++ [s]
        joints := c.joints ++ (nonFixedSegments [s]).map Segment.getJoint } := by
  by_cases h : s.getJoint.getType = JointType.Fixed
  · simp [Chain.addSegment, nonFixedSegments, h]
  · simp [Chain.addSegment, nonFixedSegments, h]

theorem foldl_addSegment (ss : List Segment) (c : Chain) :
    ss.foldl Chain.addSegment c =
      { nrOfJoints := c.nrOfJoints + (nonFixedSegments ss).length
        nrOfSegments := c.nrOfSegments + ss.length
        segments := c.segments ++ ss
        joints := c.joints ++ (nonFixedSegments ss).map Segment.getJoint } := by
  induction ss generalizing c with
  | nil => simp [nonFixedSegments]
  | cons s ss ih =>
    rw [List.foldl_cons, ih, addSegment_eq]
    have h := nonFixedSegments_append [s] ss
    simp only [List.singleton_append] at h
    simp [h, Nat.add_assoc, Nat.add_comm 1]

theorem build_eq (segs : List Segment) :
    Chain.build segs =
      { nrOfJoints := (nonFixedSegments segs).length
        nrOfSegments := segs.length
        segments := segs
        joints := (nonFixedSegments segs).map Segment.getJoint } := by
  simp [Chain.build, foldl_addSegment, Chain.ctor]

theorem inv_ctor : Chain.Inv Chain.ctor :=
  ⟨rfl, rfl, rfl⟩

theorem inv_foldl (ss : List Segment) (c : Chain) (h : c.Inv) :
    (ss.foldl Chain.addSegment c).Inv := by
  rw [foldl_addSegment]
  refine ⟨?_, ?_, ?_⟩
  · simp [h.segs]
  · simp [h.jnts]
  · simp [h.derived, nonFixedSegments_append]

theorem inv_addSegment (c : Chain) (s : Segment) (h : c.Inv) : (c.addSegment s).Inv :=
  inv_foldl [s] c h

/-- Whatever the argument, a run of the loop that returns has appended some
segments to the receiver with `addSegment`, and nothing else. -/
theorem appendLoop_ok (fuel : Nat) (arg : Arg) :
    ∀ (i : Nat) (self c' : Chain), Chain.appendLoop fuel arg i self = .ok c' →
      ∃ ss : List Segment, c' = ss.foldl Chain.addSegment self := by
  induction fuel with
  | zero => intro i self c' h; simp [Chain.appendLoop] at h
  | succ fuel ih =>
    intro i self c' h
    unfold Chain.appendLoop at h
    split at h
    · split at h
      · rename_i segment _
        obtain ⟨ss, hss⟩ := ih _ _ _ h
        exact ⟨segment :: ss, by simpa using hss⟩
      · simp at h
    · refine ⟨[], ?_⟩
      simp only [Except.ok.injEq] at h
      simp [h]

/-- With another chain as argument, whose counter is the size of its segment
container, the loop returns as soon as the fuel exceeds the iterations left, and
has then appended the remaining segments of the argument in order. -/
theorem appendLoop_other (d : Chain) (hd : d.nrOfSegments = d.segments.length) (fuel : Nat) :
    ∀ (i : Nat) (self : Chain), d.nrOfSegments - i < fuel →
      Chain.appendLoop fuel (Arg.other d) i self
        = .ok ((d.segments.drop i).foldl Chain.addSegment self) := by
  induction fuel with
  | zero => intro i self h; omega
  | succ fuel ih =>
    intro i self h
    unfold Chain.appendLoop
    simp only [Arg.read, Chain.getNrOfSegments, Chain.getSegment]
    by_cases hi : i < d.nrOfSegments
    · have hlt : i < d.segments.length := by omega
      rw [if_pos hi, List.getElem?_eq_getElem hlt]
      simp only
      rw [ih (i + 1) _ (by omega)]
      conv_rhs => rw [List.drop_eq_getElem_cons hlt, List.foldl_cons]
    · rw [if_neg hi]
      have : d.segments.drop i = [] := by
        apply List.drop_eq_nil_of_le; omega
      simp [this]

theorem reachable_inv (c : Chain) (h : c.Reachable) : c.Inv := by
  induction h with
  | ctor => exact inv_ctor
  | addSegment c s _ ih => exact inv_addSegment c s ih
  | copy fuel inp c' _ hc _ =>
    obtain ⟨ss, rfl⟩ := appendLoop_ok _ _ _ _ _ hc
    exact inv_foldl ss _ inv_ctor
  | addChain fuel c arg c' _ _ hc ih _ =>
    obtain ⟨ss, rfl⟩ := appendLoop_ok _ _ _ _ _ hc
    exact inv_foldl ss _ ih
  | assign fuel c arg c' _ _ hc _ _ =>
    obtain ⟨ss, rfl⟩ := appendLoop_ok _ _ _ _ _ hc
    exact inv_foldl ss _ inv_ctor

theorem reachable_build (segs : List Segment) : (Chain.build segs).Reachable := by
  unfold Chain.build
  suffices h : ∀ c : Chain, c.Reachable → (segs.foldl Chain.addSegment c).Reachable from
    h _ Chain.Reachable.ctor
  induction segs with
  | nil => intro c hc; exact hc
  | cons s ss ih => intro c hc; exact ih _ (Chain.Reachable.addSegment c s hc)

/-- A chain that satisfies the invariant is the chain built from its segments. -/
theorem build_segments (c : Chain) (h : c.Inv) : Chain.build c.segments = c := by
  obtain ⟨h1, h2, h3⟩ := h
  rw [build_eq]
  cases c
  simp only at h1 h2 h3
  subst h3
  simp [h1, h2]

/-- The invariant describes exactly the chains the operations produce. -/
theorem inv_iff_reachable (c : Chain) : c.Inv ↔ c.Reachable := by
  constructor
  · intro h
    rw [← build_segments c h]
    exact reachable_build _
  · exact reachable_inv c

end KDL

namespace KDL

/-! ## Chains: counts, order and access -/

/-- C1: on every chain produced by the operations of the class (the
constructors, `addSegment`, `addChain`, `operator=`), `getNrOfJoints()` is the
number of segments of the chain whose joint type is not Fixed. -/
theorem nrOfJoints_eq_count_nonFixed (c : Chain) (h : c.Reachable) :
    c.getNrOfJoints = (nonFixedSegments c.segments).length := by
  have hi := reachable_inv c h
  rw [Chain.getNrOfJoints, hi.jnts, hi.derived, List.length_map]

/-- C1, the scenario of the specification: segments with joint types
`[RotZ, Fixed, TransX]` give `getNrOfSegments() = 3` and `getNrOfJoints() = 2`,
the number of non-Fixed segments. -/
theorem nrOfJoints_eq_count_nonFixed_witness :
    Example.chain3.Reachable ∧
    Example.chain3.getNrOfSegments = 3 ∧
    Example.chain3.getNrOfJoints = 2 ∧
    Example.chain3.getNrOfJoints = (nonFixedSegments Example.chain3.segments).length :=
  have hr : Example.chain3.Reachable :=
    Chain.Reachable.addSegment _ _
      (Chain.Reachable.addSegment _ _ (Chain.Reachable.addSegment _ _ Chain.Reachable.ctor))
  ⟨hr, by decide, by decide, nrOfJoints_eq_count_nonFixed Example.chain3 hr⟩

/-- C2: for the chain built by `addSegment` on `s_0 ... s_{n-1}` in order, the
actuated-joint sequence is the joints of the non-Fixed segments in chain order,
and for every `k < getNrOfJoints()`, `getJoint(k)` returns the joint of the
`k`-th non-Fixed segment. -/
theorem getJoint_build (segs : List Segment) :
    (Chain.build segs).getJoints = (nonFixedSegments segs).map Segment.getJoint ∧
    ∀ k, k < (Chain.build segs).getNrOfJoints →
      ∃ s, (nonFixedSegments segs)[k]? = some s ∧
        (Chain.build segs).getJoint k = .ok s.getJoint := by
  rw [build_eq]
  refine ⟨rfl, ?_⟩
  intro k hk
  simp only [Chain.getNrOfJoints] at hk
  refine ⟨(nonFixedSegments segs)[k], List.getElem?_eq_getElem hk, ?_⟩
  simp [Chain.getJoint, List.getElem?_eq_getElem hk]

/-- C3: the chain built by `addSegment` on `s_0 ... s_{n-1}` in order has
`getNrOfSegments() = n` and `getSegment(i) = s_i` for every `i < n`, and one
more `addSegment` leaves every segment already there unchanged at its index. -/
theorem getSegment_build (segs : List Segment) :
    (Chain.build segs).getNrOfSegments = segs.length ∧
    (∀ i s, segs[i]? = some s → (Chain.build segs).getSegment i = .ok s) ∧
    (∀ i, i < segs.length → ∃ s, (Chain.build segs).getSegment i = .ok s) ∧
    (∀ (t : Segment) (i : Nat), i < (Chain.build segs).getNrOfSegments →
      ((Chain.build segs).addSegment t).getSegment i = (Chain.build segs).getSegment i) := by
  rw [build_eq]
  refine ⟨rfl, ?_, ?_, ?_⟩
  · intro i s h
    simp [Chain.getSegment, h]
  · intro i hi
    exact ⟨segs[i], by simp [Chain.getSegment, List.getElem?_eq_getElem hi]⟩
  · intro t i hi
    simp only [Chain.getNrOfSegments] at hi
    rw [addSegment_eq]
    simp [Chain.getSegment, List.getElem?_append_left hi]

/-- C4: for chains `a` and `b` produced by the operations of the class, the call
`a.addChain(b)` returns (with any step budget above `b.getNrOfSegments()`), and
then the segment sequence of `a` is its old one followed by that of `b`:
`getNrOfSegments()` has grown by `b.getNrOfSegments()`, the last
`b.getNrOfSegments()` segments are the segments of `b` in order, the earlier
ones are unchanged, and `b` is unchanged. -/
theorem addChain_concat (a b : Chain) (ha : a.Reachable) (hb : b.Reachable)
    (fuel : Nat) (hf : b.getNrOfSegments < fuel) :
    ∃ a', a.addChain fuel (Arg.other b) = .ok a' ∧
      a'.segments = a.segments ++ b.segments ∧
      a'.getNrOfSegments = a.getNrOfSegments + b.getNrOfSegments ∧
      (∀ i, i < b.getNrOfSegments →
        a'.getSegment (a.getNrOfSegments + i) = b.getSegment i) ∧
      (∀ i, i < a.getNrOfSegments → a'.getSegment i = a.getSegment i) ∧
      (Arg.other b).read a' = b := by
  have hia := reachable_inv a ha
  have hib := reachable_inv b hb
  refine ⟨_, appendLoop_other b hib.segs fuel 0 a (by simpa [Chain.getNrOfSegments] using hf), ?_⟩
  rw [List.drop_zero, foldl_addSegment]
  refine ⟨rfl, ?_, ?_, ?_, rfl⟩
  · simp [Chain.getNrOfSegments, hib.segs]
  · intro i _
    simp only [Chain.getSegment, Chain.getNrOfSegments, hia.segs]
    rw [List.getElem?_append_right (by omega)]
    simp
  · intro i hi
    simp only [Chain.getNrOfSegments, hia.segs] at hi
    simp [Chain.getSegment, List.getElem?_append_left hi]

/-- C4 at `chain3.addChain(chain2)`. -/
theorem addChain_concat_witness :
    Example.chain3.Reachable ∧ Example.chain2.Reachable ∧
    Example.chain2.getNrOfSegments < 3 ∧
    ∃ a', Example.chain3.addChain 3 (Arg.other Example.chain2) = .ok a' ∧
      a'.segments = Example.chain3.segments ++ Example.chain2.segments ∧
      a'.getNrOfSegments = Example.chain3.getNrOfSegments + Example.chain2.getNrOfSegments ∧
      (∀ i, i < Example.chain2.getNrOfSegments →
        a'.getSegment (Example.chain3.getNrOfSegments + i) = Example.chain2.getSegment i) ∧
      (∀ i, i < Example.chain3.getNrOfSegments →
        a'.getSegment i = Example.chain3.getSegment i) ∧
      (Arg.other Example.chain2).read a' = Example.chain2 :=
  have h3 : Example.chain3.Reachable :=
    Chain.Reachable.addSegment _ _
      (Chain.Reachable.addSegment _ _ (Chain.Reachable.addSegment _ _ Chain.Reachable.ctor))
  have h2 : Example.chain2.Reachable :=
    Chain.Reachable.addSegment _ _ (Chain.Reachable.addSegment _ _ Chain.Reachable.ctor)
  ⟨h3, h2, by decide, addChain_concat Example.chain3 Example.chain2 h3 h2 3 (by decide)⟩

/-- C5: for every chain `b` produced by the operations of the class, the copy
constructor `Chain(b)` returns a chain with the segment sequence, joint
sequence and both counters of `b`; and for every chain `a`, whatever it holds,
the assignment `a = b` returns and leaves in `a` exactly the segment sequence,
joint sequence and counters of `b`, with `b` unchanged. The step budget is any
number above `b.getNrOfSegments()`. -/
theorem copy_assign_deep (a b : Chain) (hb : b.Reachable)
    (fuel : Nat) (hf : b.getNrOfSegments < fuel) :
    (∃ c, Chain.copy fuel b = .ok c ∧ c.segments = b.segments ∧ c.getJoints = b.getJoints ∧
      c.getNrOfSegments = b.getNrOfSegments ∧ c.getNrOfJoints = b.getNrOfJoints) ∧
    (∃ a', a.assign fuel (Arg.other b) = .ok a' ∧ a'.segments = b.segments ∧
      a'.getJoints = b.getJoints ∧ a'.getNrOfSegments = b.getNrOfSegments ∧
      a'.getNrOfJoints = b.getNrOfJoints ∧ a' = b ∧ (Arg.other b).read a' = b) := by
  have hib := reachable_inv b hb
  have hloop := appendLoop_other b hib.segs fuel 0 Chain.ctor
    (by simpa [Chain.getNrOfSegments] using hf)
  have hbuild : (b.segments.drop 0).foldl Chain.addSegment Chain.ctor = b :=
    build_segments b hib
  rw [hbuild] at hloop
  exact ⟨⟨b, hloop, rfl, rfl, rfl, rfl⟩, ⟨b, hloop, rfl, rfl, rfl, rfl, rfl, rfl⟩⟩

/-- C5 at `Chain(chain2)` and `chain3 = chain2`. -/
theorem copy_assign_deep_witness :
    Example.chain2.Reachable ∧ Example.chain2.getNrOfSegments < 3 ∧
    (∃ c, Chain.copy 3 Example.chain2 = .ok c ∧ c.segments = Example.chain2.segments ∧
      c.getJoints = Example.chain2.getJoints ∧
      c.getNrOfSegments = Example.chain2.getNrOfSegments ∧
      c.getNrOfJoints = Example.chain2.getNrOfJoints) ∧
    (∃ a', Example.chain3.assign 3 (Arg.other Example.chain2) = .ok a' ∧
      a'.segments = Example.chain2.segments ∧
      a'.getJoints = Example.chain2.getJoints ∧
      a'.getNrOfSegments = Example.chain2.getNrOfSegments ∧
      a'.getNrOfJoints = Example.chain2.getNrOfJoints ∧ a' = Example.chain2 ∧
      (Arg.other Example.chain2).read a' = Example.chain2) :=
  have h2 : Example.chain2.Reachable :=
    Chain.Reachable.addSegment _ _ (Chain.Reachable.addSegment _ _ Chain.Reachable.ctor)
  ⟨h2, by decide, copy_assign_deep Example.chain3 Example.chain2 h2 3 (by decide)⟩

/-- C6: on every chain `c` produced by the operations of the class and for every
index `k`, `c.getJoint(k)` returns a joint if and only if `k < c.getNrOfJoints()`
and raises the range failure otherwise; in particular it raises the range
failure for every `k` when all segments of `c` have a Fixed joint. -/
theorem getJoint_checked (c : Chain) (h : c.Reachable) (k : Nat) :
    ((∃ j, c.getJoint k = .ok j) ↔ k < c.getNrOfJoints) ∧
    (¬ k < c.getNrOfJoints → c.getJoint k = .error Fault.out_of_range) ∧
    ((∀ s ∈ c.segments, s.getJoint.getType = JointType.Fixed) →
      c.getJoint k = .error Fault.out_of_range) := by
  have hi := reachable_inv c h
  have hnone : ¬ k < c.getNrOfJoints → c.getJoint k = .error Fault.out_of_range := by
    intro hk
    have : c.joints[k]? = none := by
      apply List.getElem?_eq_none
      simp only [Chain.getNrOfJoints, hi.jnts] at hk
      omega
    simp [Chain.getJoint, this]
  refine ⟨⟨?_, ?_⟩, hnone, ?_⟩
  · rintro ⟨j, hj⟩
    by_contra hk
    rw [hnone hk] at hj
    cases hj
  · intro hk
    simp only [Chain.getNrOfJoints, hi.jnts] at hk
    exact ⟨c.joints[k], by simp [Chain.getJoint, List.getElem?_eq_getElem hk]⟩
  · intro hall
    apply hnone
    have : nonFixedSegments c.segments = [] := by
      simp only [nonFixedSegments, List.filter_eq_nil_iff]
      intro s hs
      simp [hall s hs]
    simp [Chain.getNrOfJoints, hi.jnts, hi.derived, this]

/-- C6 at index 1 of a chain of two Fixed-joint segments. -/
theorem getJoint_checked_witness :
    Example.chainFixed.Reachable ∧
    (((∃ j, Example.chainFixed.getJoint 1 = .ok j) ↔ 1 < Example.chainFixed.getNrOfJoints) ∧
    (¬ 1 < Example.chainFixed.getNrOfJoints →
      Example.chainFixed.getJoint 1 = .error Fault.out_of_range) ∧
    ((∀ s ∈ Example.chainFixed.segments, s.getJoint.getType = JointType.Fixed) →
      Example.chainFixed.getJoint 1 = .error Fault.out_of_range)) :=
  have hr : Example.chainFixed.Reachable :=
    Chain.Reachable.addSegment _ _ (Chain.Reachable.addSegment _ _ Chain.Reachable.ctor)
  ⟨hr, getJoint_checked Example.chainFixed hr 1⟩

end KDL

namespace KDL

/-! ## Equality -/

theorem index_eq_ok {α : Type} (v : List α) (i : Nat) (x : α) :
    Chain.index v i = .ok x ↔ v[i]? = some x := by
  unfold Chain.index
  cases h : v[i]? <;> simp

theorem getSegment_eq_ok (c : Chain) (i : Nat) (x : Segment) :
    c.getSegment i = .ok x ↔ c.segments[i]? = some x := by
  unfold Chain.getSegment
  cases h : c.segments[i]? <;> simp

theorem getJoint_eq_ok (c : Chain) (i : Nat) (x : Joint) :
    c.getJoint i = .ok x ↔ c.joints[i]? = some x := by
  unfold Chain.getJoint
  cases h : c.joints[i]? <;> simp

/-- Over two vectors of one size, the comparison loop never leaves the vectors
and runs to its end exactly when all remaining pairs are equal. -/
theorem EqualLoop_spec {α : Type} (elemEqual : α → α → ℚ → Bool) (va vb : List α) (eps : ℚ)
    (hlen : va.length = vb.length) :
    ∀ todo i, i + todo = va.length →
      ∃ r, Chain.EqualLoop elemEqual va vb eps todo i = .ok r ∧
        (r = true ↔ ∀ j, i ≤ j → j < va.length →
          ∃ x y, va[j]? = some x ∧ vb[j]? = some y ∧ elemEqual x y eps = true) := by
  intro todo
  induction todo with
  | zero =>
    intro i hi
    refine ⟨true, rfl, ?_⟩
    simp only [true_iff]
    intro j h1 h2
    omega
  | succ todo ih =>
    intro i hi
    have hia : i < va.length := by omega
    have hib : i < vb.length := by omega
    have ea : Chain.index va i = .ok va[i] := (index_eq_ok _ _ _).2 (List.getElem?_eq_getElem hia)
    have eb : Chain.index vb i = .ok vb[i] := (index_eq_ok _ _ _).2 (List.getElem?_eq_getElem hib)
    unfold Chain.EqualLoop
    rw [ea, eb]
    simp only
    by_cases he : elemEqual va[i] vb[i] eps = true
    · obtain ⟨r, hr, hiff⟩ := ih (i + 1) (by omega)
      refine ⟨r, by simp [he, hr], ?_⟩
      rw [hiff]
      constructor
      · intro h j h1 h2
        by_cases hj : j = i
        · subst hj
          exact ⟨va[j], vb[j], List.getElem?_eq_getElem hia, List.getElem?_eq_getElem hib, he⟩
        · exact h j (by omega) h2
      · intro h j h1 h2
        exact h j (by omega) h2
    · refine ⟨false, by simp [he], ?_⟩
      simp only [Bool.false_eq_true, false_iff]
      intro h
      obtain ⟨x, y, hx, hy, hxy⟩ := h i (Nat.le_refl i) hia
      rw [List.getElem?_eq_getElem hia] at hx
      rw [List.getElem?_eq_getElem hib] at hy
      simp only [Option.some.injEq] at hx hy
      subst hx hy
      exact he hxy

/-- On any two chain objects `Equal` returns, and returns `true` exactly when
the four size comparisons of its guard pass and both loops find all pairs equal. -/
theorem Equal_raw (L : FrameLib) (SegmentEqual : Segment → Segment → ℚ → Bool)
    (a b : Chain) (eps : ℚ) :
    ∃ r, Chain.Equal L SegmentEqual a b eps = .ok r ∧
      (r = true ↔
        a.nrOfJoints = b.nrOfJoints ∧ a.nrOfSegments = b.nrOfSegments ∧
        a.segments.length = b.segments.length ∧ a.joints.length = b.joints.length ∧
        (∀ j, j < a.segments.length →
          ∃ x y, a.segments[j]? = some x ∧ b.segments[j]? = some y ∧
            SegmentEqual x y eps = true) ∧
        (∀ j, j < a.joints.length →
          ∃ x y, a.joints[j]? = some x ∧ b.joints[j]? = some y ∧
            Joint.Equal L x y eps = true)) := by
  unfold Chain.Equal
  by_cases hg : a.nrOfJoints = b.nrOfJoints ∧ a.nrOfSegments = b.nrOfSegments ∧
      a.segments.length = b.segments.length ∧ a.joints.length = b.joints.length
  · obtain ⟨h1, h2, h3, h4⟩ := hg
    obtain ⟨rs, hrs, hs⟩ := EqualLoop_spec SegmentEqual a.segments b.segments eps h3
      a.segments.length 0 (by omega)
    obtain ⟨rj, hrj, hj⟩ := EqualLoop_spec (Joint.Equal L) a.joints b.joints eps h4
      a.joints.length 0 (by omega)
    have hs' : rs = true ↔ ∀ j, j < a.segments.length →
        ∃ x y, a.segments[j]? = some x ∧ b.segments[j]? = some y ∧
          SegmentEqual x y eps = true := by
      rw [hs]; exact ⟨fun h j hj => h j (Nat.zero_le j) hj, fun h j _ hj => h j hj⟩
    have hj' : rj = true ↔ ∀ j, j < a.joints.length →
        ∃ x y, a.joints[j]? = some x ∧ b.joints[j]? = some y ∧
          Joint.Equal L x y eps = true := by
      rw [hj]; exact ⟨fun h j hj => h j (Nat.zero_le j) hj, fun h j _ hj => h j hj⟩
    have hguard : (a.nrOfJoints != b.nrOfJoints || a.nrOfSegments != b.nrOfSegments
        || a.segments.length != b.segments.length
        || a.joints.length != b.joints.length) = false := by
      simp [h1, h2, h3, h4]
    rw [hrs, hrj, hguard, ← hs', ← hj']
    cases rs <;> cases rj <;> simp [h1, h2, h3, h4]
  · refine ⟨false, ?_, ?_⟩
    · rw [if_pos]
      simp only [Bool.or_eq_true, bne_iff_ne, ne_eq]
      by_contra hc
      apply hg
      simp only [not_or, not_not] at hc
      obtain ⟨⟨⟨h1, h2⟩, h3⟩, h4⟩ := hc
      exact ⟨h1, h2, h3, h4⟩
    · simp only [Bool.false_eq_true, false_iff]
      intro h
      exact hg ⟨h.1, h.2.1, h.2.2.1, h.2.2.2.1⟩

/-- On chains that satisfy the invariant, what `Equal` tests is the
specification's equality. -/
theorem raw_iff_spec (L : FrameLib) (SegmentEqual : Segment → Segment → ℚ → Bool)
    (a b : Chain) (ha : a.Inv) (hb : b.Inv) (eps : ℚ) :
    (a.nrOfJoints = b.nrOfJoints ∧ a.nrOfSegments = b.nrOfSegments ∧
        a.segments.length = b.segments.length ∧ a.joints.length = b.joints.length ∧
        (∀ j, j < a.segments.length →
          ∃ x y, a.segments[j]? = some x ∧ b.segments[j]? = some y ∧
            SegmentEqual x y eps = true) ∧
        (∀ j, j < a.joints.length →
          ∃ x y, a.joints[j]? = some x ∧ b.joints[j]? = some y ∧
            Joint.Equal L x y eps = true))
      ↔ Chain.SpecEqual L SegmentEqual a b eps := by
  unfold Chain.SpecEqual
  simp only [Chain.getNrOfSegments, Chain.getNrOfJoints, getSegment_eq_ok, getJoint_eq_ok]
  rw [ha.segs, ha.jnts, hb.segs, hb.jnts]
  constructor
  · rintro ⟨_, _, h3, h4, h5, h6⟩
    exact ⟨h3, h4, h5, h6⟩
  · rintro ⟨h3, h4, h5, h6⟩
    exact ⟨h4, h3, h3, h4, h5, h6⟩

/-- C7: for chains `a`, `b` produced by the operations of the class and every
`eps`, `Equal(a, b, eps)` returns `true` if and only if the segment counts
match, the joint counts match, `Equal` holds of the segments at every segment
index and `Equal` holds of the joints at every actuated-joint index; it returns
`false` otherwise. -/
theorem Equal_iff_SpecEqual (L : FrameLib) (SegmentEqual : Segment → Segment → ℚ → Bool)
    (a b : Chain) (ha : a.Reachable) (hb : b.Reachable) (eps : ℚ) :
    (Chain.Equal L SegmentEqual a b eps = .ok true ↔ Chain.SpecEqual L SegmentEqual a b eps) ∧
    (Chain.Equal L SegmentEqual a b eps = .ok false ↔
      ¬ Chain.SpecEqual L SegmentEqual a b eps) := by
  obtain ⟨r, hr, hiff⟩ := Equal_raw L SegmentEqual a b eps
  rw [raw_iff_spec L SegmentEqual a b (reachable_inv a ha) (reachable_inv b hb) eps] at hiff
  rw [hr, ← hiff]
  cases r <;> simp

/-- C7 at two chains of different length, which `Equal` tells apart. -/
theorem Equal_iff_SpecEqual_witness :
    Example.chain3.Reachable ∧ Example.chain2.Reachable ∧
    Chain.Equal Example.lib Example.segmentEqual Example.chain3 Example.chain2 1 = .ok false ∧
    ((Chain.Equal Example.lib Example.segmentEqual Example.chain3 Example.chain2 1 = .ok true ↔
        Chain.SpecEqual Example.lib Example.segmentEqual Example.chain3 Example.chain2 1) ∧
      (Chain.Equal Example.lib Example.segmentEqual Example.chain3 Example.chain2 1 = .ok false ↔
        ¬ Chain.SpecEqual Example.lib Example.segmentEqual Example.chain3 Example.chain2 1)) :=
  have h3 : Example.chain3.Reachable :=
    Chain.Reachable.addSegment _ _
      (Chain.Reachable.addSegment _ _ (Chain.Reachable.addSegment _ _ Chain.Reachable.ctor))
  have h2 : Example.chain2.Reachable :=
    Chain.Reachable.addSegment _ _ (Chain.Reachable.addSegment _ _ Chain.Reachable.ctor)
  ⟨h3, h2, rfl,
    Equal_iff_SpecEqual Example.lib Example.segmentEqual Example.chain3 Example.chain2 h3 h2 1⟩

/-- C8: `Equal(a, b, eps)` on joints is `true` if and only if the names are
identical, the types are identical, and the frame library's `Equal` holds
within `eps` of the scales, offsets, inertias, dampings, stiffnesses, upper and
lower position limits, home positions, axes and origins; the pose cache
(`joint_pose`, `q_previous`) has no influence on the result. -/
theorem Joint_Equal_iff (L : FrameLib) (a b : Joint) (eps : ℚ) :
    (Joint.Equal L a b eps = true ↔
      a.name = b.name ∧ a.type = b.type ∧
      L.EqualScalar a.scale b.scale eps = true ∧
      L.EqualScalar a.offset b.offset eps = true ∧
      L.EqualScalar a.inertia b.inertia eps = true ∧
      L.EqualScalar a.damping b.damping eps = true ∧
      L.EqualScalar a.stiffness b.stiffness eps = true ∧
      L.EqualScalar a.upper_position_limit b.upper_position_limit eps = true ∧
      L.EqualScalar a.lower_position_limit b.lower_position_limit eps = true ∧
      L.EqualScalar a.home_position b.home_position eps = true ∧
      L.EqualVector a.axis b.axis eps = true ∧
      L.EqualVector a.origin b.origin eps = true) ∧
    (∀ (pa pb : Frame) (qa qb : ℚ),
      Joint.Equal L { a with joint_pose := pa, q_previous := qa }
        { b with joint_pose := pb, q_previous := qb } eps = Joint.Equal L a b eps) := by
  refine ⟨?_, fun _ _ _ _ => rfl⟩
  simp only [Joint.Equal, Bool.and_eq_true, beq_iff_eq, and_assoc]

/-! ## Joint arrays -/

/-- The difference of two vectors of one size passes `isZero(eps)` exactly when
every pair of coefficients differs by at most `eps`. -/
theorem isZero_sub_iff (eps : ℚ) :
    ∀ (xs ys : List ℚ) (h : xs.length = ys.length),
      Eigen.isZero (Eigen.sub xs ys h) eps = true ↔
        ∀ i, i < xs.length → ∃ x y, xs[i]? = some x ∧ ys[i]? = some y ∧ |x - y| ≤ eps := by
  intro xs
  induction xs with
  | nil =>
    intro ys h
    simp [Eigen.isZero, Eigen.sub]
  | cons x xs ih =>
    intro ys h
    cases ys with
    | nil => simp at h
    | cons y ys =>
      have h' : xs.length = ys.length := by simpa using h
      have ih' := ih ys h'
      simp only [Eigen.isZero, Eigen.sub, List.zipWith_cons_cons, List.all_cons,
        Bool.and_eq_true] at ih' ⊢
      rw [ih']
      simp only [Eigen.isMuchSmallerThan, abs_one, one_mul, decide_eq_true_eq]
      constructor
      · rintro ⟨h0, hrest⟩ i hi
        cases i with
        | zero => exact ⟨x, y, by simp, by simp, h0⟩
        | succ i =>
          simpa using hrest i (by simpa using hi)
      · intro hall
        refine ⟨?_, ?_⟩
        · obtain ⟨x', y', hx, hy, hxy⟩ := hall 0 (by simp)
          simp only [List.getElem?_cons_zero, Option.some.injEq] at hx hy
          subst hx hy
          exact hxy
        · intro i hi
          simpa using hall (i + 1) (by simpa using hi)

theorem JntArray_get_eq_ok (a : JntArray) (i : Nat) (x : ℚ) :
    a.get i = .ok x ↔ a.data[i]? = some x := by
  unfold JntArray.get
  cases h : a.data[i]? <;> simp

/-- C9: `Equal(a, b, eps)` on joint arrays is `true` if and only if `a` and `b`
have the same length and `|a[i] - b[i]| <= eps` at every index `i`; it is
`false` whenever the lengths differ. -/
theorem JntArray_Equal_iff (a b : JntArray) (eps : ℚ) :
    (a.Equal b eps = true ↔
      a.size = b.size ∧
      ∀ i, i < a.size → ∃ x y, a.get i = .ok x ∧ b.get i = .ok y ∧ |x - y| ≤ eps) ∧
    (a.size ≠ b.size → a.Equal b eps = false) := by
  unfold JntArray.Equal
  by_cases h : a.rows = b.rows
  · have hlen : a.data.length = b.data.length := h
    simp only [h, ne_eq, not_true_eq_false, dite_false, JntArray.size, JntArray_get_eq_ok]
    rw [isZero_sub_iff eps a.data b.data hlen]
    simp [hlen]
  · have hlen : ¬ a.data.length = b.data.length := h
    simp [h, JntArray.size, hlen]

end KDL

namespace KDL

/-! ## Joint arrays: construction, resizing, import and export -/

theorem getElem?_conservativeResizeLike (v : List ℚ) (n i : Nat) :
    (Eigen.conservativeResizeLike v (Eigen.Zero n))[i]? =
      if i < n then (if i < v.length then v[i]? else some 0) else none := by
  unfold Eigen.conservativeResizeLike Eigen.Zero
  simp only [List.length_replicate, List.drop_replicate]
  by_cases h1 : i < n
  · by_cases h2 : i < v.length
    · rw [List.getElem?_append_left (by simp; omega), List.getElem?_take_of_lt h1]
      simp [h1, h2]
    · rw [List.getElem?_append_right (by simp; omega)]
      simp only [List.length_take, h1, h2, if_true, if_false]
      rw [List.getElem?_replicate_of_lt]
      omega
  · rw [List.getElem?_eq_none]
    · simp [h1]
    · simp only [List.length_append, List.length_take, List.length_replicate]
      omega

/-- C11: `a.resize(n)` leaves `a` with length `n`, with `a[i]` unchanged for every
`i < min(m, n)` and `a[i] = 0` for every `i` with `m <= i < n`, where `m` is the
length before the call. -/
theorem resize_conservative (a : JntArray) (n : Nat) :
    (a.resize n).size = n ∧
    (∀ i, i < min a.size n → (a.resize n).get i = a.get i) ∧
    (∀ i, a.size ≤ i → i < n → (a.resize n).get i = .ok 0) := by
  refine ⟨?_, ?_, ?_⟩
  · simp only [JntArray.size, JntArray.resize, Eigen.conservativeResizeLike, Eigen.Zero,
      List.length_append, List.length_take, List.length_replicate, List.length_drop]
    omega
  · intro i hi
    simp only [JntArray.size] at hi
    simp only [JntArray.get, JntArray.resize, getElem?_conservativeResizeLike]
    rw [if_pos (by omega), if_pos (by omega)]
  · intro i h1 h2
    simp only [JntArray.size] at h1
    simp only [JntArray.get, JntArray.resize, getElem?_conservativeResizeLike]
    rw [if_pos h2, if_neg (by omega)]

/-- The loop of the list constructor, started at index `k` on a vector `d` with
room for the whole list, overwrites the indices `k ≤ i < k + l.size()` with the
list and touches nothing else. -/
theorem ctorList_loop (l : List ℚ) :
    ∀ (d : List ℚ) (k : Nat), k + l.length ≤ d.length →
      ((l.foldl (fun (st : List ℚ × Nat) val => (st.1.set st.2 val, st.2 + 1)) (d, k)).1).length
          = d.length ∧
      ∀ i, (l.foldl (fun (st : List ℚ × Nat) val => (st.1.set st.2 val, st.2 + 1)) (d, k)).1[i]?
          = if k ≤ i ∧ i < k + l.length then l[i - k]? else d[i]? := by
  induction l with
  | nil =>
    intro d k _
    refine ⟨rfl, ?_⟩
    intro i
    simp only [List.foldl_nil, List.length_nil, Nat.add_zero]
    rw [if_neg (by omega)]
  | cons x xs ih =>
    intro d k hk
    simp only [List.length_cons] at hk
    obtain ⟨hlen, hget⟩ := ih (d.set k x) (k + 1) (by simp only [List.length_set]; omega)
    simp only [List.foldl_cons]
    refine ⟨by rw [hlen, List.length_set], ?_⟩
    intro i
    rw [hget i]
    simp only [List.length_cons]
    by_cases h1 : k + 1 ≤ i ∧ i < k + 1 + xs.length
    · rw [if_pos h1, if_pos (by omega)]
      have : i - k = (i - (k + 1)) + 1 := by omega
      rw [this, List.getElem?_cons_succ]
    · rw [if_neg h1]
      by_cases h2 : i = k
      · subst h2
        rw [if_pos (by omega), List.getElem?_set_self (by omega)]
        simp
      · rw [if_neg (by omega), List.getElem?_set_ne (by omega)]

theorem ctorList_data (l : List ℚ) (uninit : Nat → ℚ) : (JntArray.ctorList l uninit).data = l := by
  have hlen0 : (Eigen.resize l.length uninit).length = l.length := by simp [Eigen.resize]
  obtain ⟨hlen, hget⟩ := ctorList_loop l (Eigen.resize l.length uninit) 0 (by omega)
  apply List.ext_getElem?
  intro i
  simp only [JntArray.ctorList]
  rw [hget i]
  by_cases hi : i < l.length
  · rw [if_pos (by omega)]
    simp
  · rw [if_neg (by omega), List.getElem?_eq_none (by omega), List.getElem?_eq_none (by omega)]

theorem toStdVector_eq (a : JntArray) : a.toStdVector = a.data := by
  simp only [JntArray.toStdVector, Eigen.assignMap]
  apply List.ext_getElem?
  intro i
  rw [List.getElem?_zipWith]
  by_cases hi : i < a.data.length
  · rw [List.getElem?_replicate_of_lt hi, List.getElem?_eq_getElem hi]
  · rw [List.getElem?_eq_none (l := a.data) (by omega)]
    cases (List.replicate a.data.length (0 : ℚ))[i]? <;> rfl

/-- C15: `JntArray(v)` has `size() = length(v)` and element `i` equal to `v[i]`,
and `JntArray(v).toStdVector() = v`; `a.toStdVector()` has length `a.size()` and
element `i` equal to `a[i]`, and `JntArray(a.toStdVector())` has the elements
of `a` (it is `a`). -/
theorem stdVector_roundtrip (v : List ℚ) (a : JntArray) :
    (JntArray.ctorStdVector v).size = v.length ∧
    (∀ i x, v[i]? = some x → (JntArray.ctorStdVector v).get i = .ok x) ∧
    (JntArray.ctorStdVector v).toStdVector = v ∧
    a.toStdVector.length = a.size ∧
    (∀ i x, a.get i = .ok x → a.toStdVector[i]? = some x) ∧
    (∀ i, (JntArray.ctorStdVector a.toStdVector).get i = a.get i) ∧
    JntArray.ctorStdVector a.toStdVector = a := by
  refine ⟨rfl, ?_, ?_, ?_, ?_, ?_, ?_⟩
  · intro i x h
    simp [JntArray.get, JntArray.ctorStdVector, Eigen.assign, h]
  · rw [toStdVector_eq]
    rfl
  · rw [toStdVector_eq]
    rfl
  · intro i x h
    rw [toStdVector_eq]
    exact (JntArray_get_eq_ok a i x).1 h
  · intro i
    rw [toStdVector_eq]
    rfl
  · rw [toStdVector_eq]
    rfl

/-- C17: `JntArray(n)` has `size() = n` and every element equal to 0, whatever
the fresh storage held; `JntArray(l)` for a literal list `l` has
`size() = length(l)` and element `i` equal to the `i`-th scalar of `l`. -/
theorem ctor_size_list (n : Nat) (l : List ℚ) (uninit : Nat → ℚ) :
    (JntArray.ctorSize n uninit).size = n ∧
    (∀ i, i < n → (JntArray.ctorSize n uninit).get i = .ok 0) ∧
    (JntArray.ctorList l uninit).size = l.length ∧
    (∀ i x, l[i]? = some x → (JntArray.ctorList l uninit).get i = .ok x) := by
  refine ⟨?_, ?_, ?_, ?_⟩
  · simp [JntArray.size, JntArray.ctorSize, Eigen.setZero, Eigen.resize]
  · intro i hi
    simp [JntArray.get, JntArray.ctorSize, Eigen.setZero, Eigen.resize,
      List.getElem?_range hi]
  · rw [JntArray.size, ctorList_data]
  · intro i x h
    rw [JntArray_get_eq_ok, ctorList_data]
    exact h

end KDL

namespace KDL

/-! ## Joint arrays: arithmetic -/

theorem lazyProduct_eq_sum (r : Fin 6) :
    ∀ (m : List (Fin 6 → ℚ)) (v : List ℚ) (h : m.length = v.length),
      Eigen.lazyProduct m v h r =
        ∑ j ∈ Finset.range v.length,
          (match m[j]? with
            | some col => col r
            | none => 0) * v.getD j 0 := by
  intro m
  induction m with
  | nil =>
    intro v h
    have : v = [] := List.length_eq_zero.mp (by simpa using h.symm)
    subst this
    simp [Eigen.lazyProduct]
  | cons c m ih =>
    intro v h
    cases v with
    | nil => simp at h
    | cons x v =>
      have h1 : m.length = v.length := by simpa using h
      have := ih v h1
      simp only [Eigen.lazyProduct] at this
      simp only [Eigen.lazyProduct, List.zipWith_cons_cons, List.sum_cons, List.length_cons]
      rw [Finset.sum_range_succ', this]
      simp [add_comm]

/-- C14: for a Jacobian `J` of `N` columns and a joint array `v` of length `N`,
`MultiplyJacobian(J, v, dest)` returns and sets `dest` to the twist with linear
part `(t0, t1, t2)` and angular part `(t3, t4, t5)`, where `t_r` is the sum
over `j < N` of `J(r, j) * v[j]`. -/
theorem MultiplyJacobian_eq (jac : Jacobian) (v : JntArray) (dest : Twist)
    (h : jac.columns = v.size) :
    MultiplyJacobian jac v dest =
      some { vel := ⟨specProduct jac v 0, specProduct jac v 1, specProduct jac v 2⟩
             rot := ⟨specProduct jac v 3, specProduct jac v 4, specProduct jac v 5⟩ } := by
  have hlen : jac.data.length = v.data.length := h
  simp only [MultiplyJacobian, hlen, dite_true, specProduct, Jacobian.coeff, JntArray.size,
    lazyProduct_eq_sum]

/-- C14, the scenario of the specification: with the Jacobian whose columns
are the standard basis vectors and the velocity vector `[1, 2, ..., 6]`,
`MultiplyJacobian` returns the twist `((1, 2, 3), (4, 5, 6))`. -/
theorem MultiplyJacobian_eq_witness :
    Example.jacobianId.columns = Example.velocity6.size ∧
    MultiplyJacobian Example.jacobianId Example.velocity6 ⟨⟨0, 0, 0⟩, ⟨0, 0, 0⟩⟩ =
      some { vel := ⟨specProduct Example.jacobianId Example.velocity6 0,
                     specProduct Example.jacobianId Example.velocity6 1,
                     specProduct Example.jacobianId Example.velocity6 2⟩
             rot := ⟨specProduct Example.jacobianId Example.velocity6 3,
                     specProduct Example.jacobianId Example.velocity6 4,
                     specProduct Example.jacobianId Example.velocity6 5⟩ } ∧
    MultiplyJacobian Example.jacobianId Example.velocity6 ⟨⟨0, 0, 0⟩, ⟨0, 0, 0⟩⟩ =
      some { vel := ⟨1, 2, 3⟩, rot := ⟨4, 5, 6⟩ } :=
  ⟨rfl, MultiplyJacobian_eq Example.jacobianId Example.velocity6 ⟨⟨0, 0, 0⟩, ⟨0, 0, 0⟩⟩ rfl,
    by
      have h3 : ((3 : Fin 6) : Nat) = 3 := rfl
      have h4 : ((4 : Fin 6) : Nat) = 4 := rfl
      have h5 : ((5 : Fin 6) : Nat) = 5 := rfl
      simp [MultiplyJacobian, Eigen.lazyProduct, Example.jacobianId, Example.velocity6,
        List.range, List.range.loop, h3, h4, h5]⟩

/-- C16, as the code has it: `Multiply` and `Divide` leave `dest` with the length
of the source, `Add` and `Subtract` of two arrays of one length return and
leave `dest` with that length, and `SetToZero` keeps the length of its array;
so the length of `dest` is the one it had before the call whenever that was
the length of the operands. -/
theorem arithmetic_dest_size (a b dest : JntArray) (k : ℚ) :
    (a.size = b.size → ∃ d, Add a b dest = some d ∧ d.size = a.size) ∧
    (a.size = b.size → ∃ d, Subtract a b dest = some d ∧ d.size = a.size) ∧
    (Multiply a k dest).size = a.size ∧
    (Divide a k dest).size = a.size ∧
    (SetToZero dest).size = dest.size ∧
    (a.size = b.size → dest.size = a.size →
      (∃ d, Add a b dest = some d ∧ d.size = dest.size) ∧
      (∃ d, Subtract a b dest = some d ∧ d.size = dest.size) ∧
      (Multiply a k dest).size = dest.size ∧
      (Divide a k dest).size = dest.size) := by
  have hadd : a.size = b.size → ∃ d, Add a b dest = some d ∧ d.size = a.size := by
    intro h
    have hlen : a.data.length = b.data.length := h
    exact ⟨{ dest with data := Eigen.add a.data b.data hlen },
      by simp only [Add, hlen, dite_true, Eigen.assign],
      by simp [JntArray.size, Eigen.add, hlen]⟩
  have hsub : a.size = b.size → ∃ d, Subtract a b dest = some d ∧ d.size = a.size := by
    intro h
    have hlen : a.data.length = b.data.length := h
    exact ⟨{ dest with data := Eigen.sub a.data b.data hlen },
      by simp only [Subtract, hlen, dite_true, Eigen.assign],
      by simp [JntArray.size, Eigen.sub, hlen]⟩
  have hmul : (Multiply a k dest).size = a.size := by
    simp [JntArray.size, Multiply, Eigen.scale, Eigen.assign]
  have hdiv : (Divide a k dest).size = a.size := by
    simp [JntArray.size, Divide, Eigen.div, Eigen.assign]
  refine ⟨hadd, hsub, hmul, hdiv, ?_, ?_⟩
  · simp [JntArray.size, SetToZero, Eigen.setZero]
  · intro h hd
    rw [hd]
    exact ⟨hadd h, hsub h, hmul, hdiv⟩

/-- C16 fails as stated: `Multiply([1, 2, 3], 2, dest)` with an empty `dest`
leaves `dest` with length 3, not with the length 0 it had before the call; and
so does `Add([1, 2, 3], [1, 2, 3], dest)`. -/
theorem arithmetic_resizes_dest :
    (Multiply (JntArray.mk [1, 2, 3]) 2 (JntArray.mk [])).size = 3 ∧
    (JntArray.mk []).size = 0 ∧
    (Multiply (JntArray.mk [1, 2, 3]) 2 (JntArray.mk [])).size ≠ (JntArray.mk []).size ∧
    (∃ d, Add (JntArray.mk [1, 2, 3]) (JntArray.mk [1, 2, 3]) (JntArray.mk []) = some d ∧
      d.size ≠ (JntArray.mk []).size) := by
  refine ⟨rfl, rfl, by decide, ?_⟩
  refine ⟨_, rfl, ?_⟩
  decide

end KDL

namespace KDL

/-! ## Chains: an argument that is the receiver itself -/

/-- With the receiver itself as argument, the loop that has not yet reached
the segment counter never reaches it: every iteration moves both by one. -/
theorem appendLoop_self_diverges (fuel : Nat) :
    ∀ (i : Nat) (self : Chain), self.nrOfSegments = self.segments.length →
      i < self.nrOfSegments →
      Chain.appendLoop fuel Arg.self i self = .error Fault.out_of_fuel := by
  induction fuel with
  | zero => intro i self _ _; rfl
  | succ fuel ih =>
    intro i self hwf hi
    unfold Chain.appendLoop
    simp only [Arg.read, Chain.getNrOfSegments, Chain.getSegment]
    have hlt : i < self.segments.length := by omega
    rw [if_pos hi, List.getElem?_eq_getElem hlt]
    simp only
    apply ih
    · rw [addSegment_eq]
      simp [hwf]
    · rw [addSegment_eq]
      simp only
      omega

/-- C18, what the code does: on a chain built from one segment or more the call
`c.addChain(c)` is still running after any number of steps, so it never
returns a chain of `2n` segments; on the empty chain it returns at once and
leaves the chain empty. -/
theorem addChain_self_never_returns (s : Segment) (segs : List Segment) (fuel : Nat) :
    Chain.addChain fuel (Chain.build (s :: segs)) Arg.self = .error Fault.out_of_fuel ∧
    Chain.addChain (fuel + 1) Chain.ctor Arg.self = .ok Chain.ctor := by
  refine ⟨?_, rfl⟩
  unfold Chain.addChain
  apply appendLoop_self_diverges
  · rw [build_eq]
  · rw [build_eq]
    simp

/-- C19, what the code does: the assignment `c = c` returns the empty chain,
which has the segment sequence of `c` only when `c` had no segment. -/
theorem assign_self_empties (c : Chain) (fuel : Nat) :
    Chain.assign (fuel + 1) c Arg.self = .ok Chain.ctor ∧
    (c.segments ≠ [] → Chain.ctor.segments ≠ c.segments) ∧
    (c.getNrOfSegments ≠ 0 → Chain.ctor.getNrOfSegments ≠ c.getNrOfSegments) := by
  refine ⟨rfl, ?_, ?_⟩
  · intro h heq
    exact h heq.symm
  · intro h heq
    exact h heq.symm

/-! ## Chains: counters and containers -/

/-- C20: on every chain produced by the operations of the class,
`getNrOfSegments() = segments.size()`, `getNrOfJoints() = joints.size()` and
`getNrOfJoints() <= getNrOfSegments()`; hence on two such chains `Equal`
returns what it would return without its two comparisons of container sizes. -/
theorem counters_agree (L : FrameLib) (SegmentEqual : Segment → Segment → ℚ → Bool)
    (a b : Chain) (ha : a.Reachable) (hb : b.Reachable) (eps : ℚ) :
    a.getNrOfSegments = a.segments.length ∧
    a.getNrOfJoints = a.joints.length ∧
    a.getNrOfJoints ≤ a.getNrOfSegments ∧
    Chain.Equal L SegmentEqual a b eps = Chain.EqualByCounters L SegmentEqual a b eps := by
  have hia := reachable_inv a ha
  have hib := reachable_inv b hb
  refine ⟨hia.segs, hia.jnts, ?_, ?_⟩
  · simp only [Chain.getNrOfJoints, Chain.getNrOfSegments]
    rw [hia.jnts, hia.segs, hia.derived, List.length_map]
    exact List.length_filter_le _ _
  · unfold Chain.Equal Chain.EqualByCounters
    have hguard : (a.nrOfJoints != b.nrOfJoints || a.nrOfSegments != b.nrOfSegments
        || a.segments.length != b.segments.length
        || a.joints.length != b.joints.length)
        = (a.nrOfJoints != b.nrOfJoints || a.nrOfSegments != b.nrOfSegments) := by
      rw [← hia.segs, ← hib.segs, ← hia.jnts, ← hib.jnts]
      cases (a.nrOfJoints != b.nrOfJoints) <;> cases (a.nrOfSegments != b.nrOfSegments) <;> rfl
    rw [hguard]

/-- C20 at the chains `[RotZ, Fixed, TransX]` and `[Fixed, RotX]`. -/
theorem counters_agree_witness :
    Example.chain3.Reachable ∧ Example.chain2.Reachable ∧
    (Example.chain3.getNrOfSegments = Example.chain3.segments.length ∧
      Example.chain3.getNrOfJoints = Example.chain3.joints.length ∧
      Example.chain3.getNrOfJoints ≤ Example.chain3.getNrOfSegments ∧
      Chain.Equal Example.lib Example.segmentEqual Example.chain3 Example.chain2 1
        = Chain.EqualByCounters Example.lib Example.segmentEqual Example.chain3
            Example.chain2 1) :=
  have h3 : Example.chain3.Reachable :=
    Chain.Reachable.addSegment _ _
      (Chain.Reachable.addSegment _ _ (Chain.Reachable.addSegment _ _ Chain.Reachable.ctor))
  have h2 : Example.chain2.Reachable :=
    Chain.Reachable.addSegment _ _ (Chain.Reachable.addSegment _ _ Chain.Reachable.ctor)
  ⟨h3, h2, counters_agree Example.lib Example.segmentEqual Example.chain3 Example.chain2 h3 h2 1⟩

end KDL

namespace KDL

/-! ## Chains: joints under `addChain` -/

/-- C21: for chains `a` and `b` produced by the operations of the class, `b` an
object other than `a`, the call `a.addChain(b)` returns (with any step budget
above `b.getNrOfSegments()`), and then `getNrOfJoints()` is the old
`a.getNrOfJoints() + b.getNrOfJoints()` and the actuated-joint sequence is the
old one of `a` followed by that of `b`; so joint-space vectors `qa` for `a` and
`qb` for `b` concatenate to one for the combined chain, in which every joint
keeps its entry. -/
theorem addChain_joints_additive (a b : Chain) (ha : a.Reachable) (hb : b.Reachable)
    (fuel : Nat) (hf : b.getNrOfSegments < fuel) :
    ∃ a', a.addChain fuel (Arg.other b) = .ok a' ∧
      a'.getNrOfJoints = a.getNrOfJoints + b.getNrOfJoints ∧
      a'.getJoints = a.getJoints ++ b.getJoints ∧
      (∀ k, k < a.getNrOfJoints → a'.getJoint k = a.getJoint k) ∧
      (∀ k, k < b.getNrOfJoints → a'.getJoint (a.getNrOfJoints + k) = b.getJoint k) ∧
      (∀ qa qb : JntArray, qa.size = a.getNrOfJoints → qb.size = b.getNrOfJoints →
        (JntArray.mk (qa.data ++ qb.data)).size = a'.getNrOfJoints ∧
        a'.jointValues (JntArray.mk (qa.data ++ qb.data))
          = a.jointValues qa ++ b.jointValues qb) := by
  have hia := reachable_inv a ha
  have hib := reachable_inv b hb
  refine ⟨_, appendLoop_other b hib.segs fuel 0 a (by simpa [Chain.getNrOfSegments] using hf), ?_⟩
  rw [List.drop_zero, foldl_addSegment, ← hib.derived]
  have hnb : (nonFixedSegments b.segments).length = b.nrOfJoints := by
    rw [hib.jnts, hib.derived, List.length_map]
  refine ⟨?_, rfl, ?_, ?_, ?_⟩
  · simp only [Chain.getNrOfJoints, hnb]
  · intro k hk
    simp only [Chain.getNrOfJoints, hia.jnts] at hk
    simp only [Chain.getJoint, List.getElem?_append_left hk]
  · intro k _
    simp only [Chain.getJoint, Chain.getNrOfJoints, hia.jnts]
    rw [List.getElem?_append_right (by omega)]
    simp
  · intro qa qb hqa hqb
    simp only [JntArray.size, Chain.getNrOfJoints] at hqa hqb
    refine ⟨?_, ?_⟩
    · simp only [JntArray.size, Chain.getNrOfJoints, List.length_append, hnb, hqa, hqb]
    · simp only [Chain.jointValues, Chain.getJoints]
      rw [List.zip_append (by rw [hqa, hia.jnts])]

/-- C21 at `chain3.addChain(chain2)`: joint types `[RotZ, TransX]` followed by
`[RotX]`. -/
theorem addChain_joints_additive_witness :
    Example.chain3.Reachable ∧ Example.chain2.Reachable ∧
    Example.chain2.getNrOfSegments < 3 ∧
    Example.chain3.getNrOfJoints = 2 ∧ Example.chain2.getNrOfJoints = 1 ∧
    ∃ a', Example.chain3.addChain 3 (Arg.other Example.chain2) = .ok a' ∧
      a'.getNrOfJoints = Example.chain3.getNrOfJoints + Example.chain2.getNrOfJoints ∧
      a'.getJoints = Example.chain3.getJoints ++ Example.chain2.getJoints ∧
      (∀ k, k < Example.chain3.getNrOfJoints → a'.getJoint k = Example.chain3.getJoint k) ∧
      (∀ k, k < Example.chain2.getNrOfJoints →
        a'.getJoint (Example.chain3.getNrOfJoints + k) = Example.chain2.getJoint k) ∧
      (∀ qa qb : JntArray, qa.size = Example.chain3.getNrOfJoints →
        qb.size = Example.chain2.getNrOfJoints →
        (JntArray.mk (qa.data ++ qb.data)).size = a'.getNrOfJoints ∧
        a'.jointValues (JntArray.mk (qa.data ++ qb.data))
          = Example.chain3.jointValues qa ++ Example.chain2.jointValues qb) :=
  have h3 : Example.chain3.Reachable :=
    Chain.Reachable.addSegment _ _
      (Chain.Reachable.addSegment _ _ (Chain.Reachable.addSegment _ _ Chain.Reachable.ctor))
  have h2 : Example.chain2.Reachable :=
    Chain.Reachable.addSegment _ _ (Chain.Reachable.addSegment _ _ Chain.Reachable.ctor)
  ⟨h3, h2, by decide, by decide, by decide,
    addChain_joints_additive Example.chain3 Example.chain2 h3 h2 3 (by decide)⟩

end KDL

namespace KDL

namespace IEEE

/-! ## Doubles: rounding and the reflexivity of `Equal` -/

theorem round_zero (z : Bool) : round 0 z = Double.fin z 0 := by
  simp [round]

theorem ulp_pos (q : ℚ) : 0 < ulp q := by
  unfold ulp
  positivity

theorem roundHalfEven_nonneg (t : ℚ) (ht : 0 ≤ t) : 0 ≤ roundHalfEven t := by
  have hf : 0 ≤ ⌊t⌋ := Int.floor_nonneg.mpr ht
  unfold roundHalfEven
  split_ifs <;> omega

theorem roundMag_nonneg (q : ℚ) : 0 ≤ roundMag q := by
  unfold roundMag
  have h1 : 0 ≤ |q| / ulp q := div_nonneg (abs_nonneg q) (ulp_pos q).le
  have h2 : (0 : ℚ) ≤ (roundHalfEven (|q| / ulp q) : ℚ) := by
    exact_mod_cast roundHalfEven_nonneg _ h1
  exact mul_nonneg h2 (ulp_pos q).le

/-- A difference `x - x` tested against the tolerance `0` passes exactly when `x`
is finite: for an infinity or a NaN the difference is a NaN. -/
theorem isMuchSmallerThan_sub_self (x : Double) :
    isMuchSmallerThan (Double.sub x x) Double.one Double.zero = x.isFinite := by
  have hprec : Double.mul Double.one.abs Double.zero = Double.fin false 0 := by
    simp [Double.mul, Double.one, Double.zero, Double.abs, Double.val, round_zero]
  unfold isMuchSmallerThan
  rw [hprec]
  cases x with
  | fin s m =>
    have h0 : (Double.fin s m).val + (Double.fin (!s) m).val = 0 := by
      cases s <;> simp [Double.val]
    simp only [Double.sub, Double.neg, Double.add]
    rw [h0, round_zero]
    simp [Double.abs, Double.le, Double.val, Double.isFinite]
  | inf s =>
    cases s <;> simp [Double.sub, Double.neg, Double.add, Double.abs, Double.le, Double.isFinite]
  | nan => simp [Double.sub, Double.neg, Double.add, Double.abs, Double.le, Double.isFinite]

theorem isZero_vsub_self (xs : List Double) (h : xs.length = xs.length) :
    isZero (vsub xs xs h) Double.zero = xs.all Double.isFinite := by
  induction xs with
  | nil => rfl
  | cons x xs ih =>
    have := ih rfl
    simp only [isZero, vsub, List.zipWith_cons_cons, List.all_cons] at this ⊢
    rw [this, isMuchSmallerThan_sub_self]

/-- C10, as the code has it: `Equal(a, a, 0)` is `true` exactly for the joint
arrays, of any length, whose elements are all finite; an infinity or a NaN
among them makes it `false`. -/
theorem Equal_self_zero_iff (a : JntArray) :
    Equal a a Double.zero = true ↔ ∀ x ∈ a.data, x.isFinite = true := by
  unfold Equal
  simp only [ne_eq, not_true_eq_false, dite_false]
  rw [isZero_vsub_self, List.all_eq_true]

/-- C10 fails as stated: on the joint array `[inf]`, and on `[NaN]`,
`Equal(a, a, 0)` is `false`. -/
theorem Equal_self_zero_false :
    Equal (JntArray.mk [Double.inf false]) (JntArray.mk [Double.inf false]) Double.zero = false ∧
    Equal (JntArray.mk [Double.nan]) (JntArray.mk [Double.nan]) Double.zero = false := by
  constructor <;>
    simp [Equal, JntArray.rows, isZero, vsub, isMuchSmallerThan, Double.sub, Double.neg,
      Double.add, Double.abs, Double.le]

end IEEE

end KDL

namespace KDL

namespace IEEE

/-! ## Doubles: evaluating the rounding -/

theorem exponent_eq (q : ℚ) (e : ℤ) (h1 : (2 : ℚ) ^ e ≤ |q|) (h2 : |q| < (2 : ℚ) ^ (e + 1))
    (h3 : -1022 ≤ e) : exponent q = e := by
  have hpos : 0 < |q| := lt_of_lt_of_le (by positivity) h1
  have hlog : Int.log 2 |q| = e := by
    apply le_antisymm
    · have := (Int.lt_zpow_iff_log_lt (b := 2) (by norm_num) hpos (x := e + 1)).1
        (by simpa using h2)
      omega
    · exact (Int.zpow_le_iff_le_log (b := 2) (by norm_num) hpos).1 (by simpa using h1)
  unfold exponent
  rw [hlog]
  exact max_eq_left h3

theorem roundHalfEven_intCast (n : ℤ) : roundHalfEven (n : ℚ) = n := by
  simp [roundHalfEven]

theorem roundHalfEven_of_lt (t : ℚ) (n : ℤ) (h1 : (n : ℚ) ≤ t) (h2 : t < n + 1 / 2) :
    roundHalfEven t = n := by
  have hf : ⌊t⌋ = n := by
    rw [Int.floor_eq_iff]
    exact ⟨h1, by linarith⟩
  unfold roundHalfEven
  rw [hf, if_pos (by linarith)]

/-- The rounded magnitude of a `q` whose binade is known. -/
theorem roundMag_eval (q : ℚ) (e n : ℤ) (h1 : (2 : ℚ) ^ e ≤ |q|) (h2 : |q| < (2 : ℚ) ^ (e + 1))
    (h3 : -1022 ≤ e) (hn : roundHalfEven (|q| / (2 : ℚ) ^ (e - 52)) = n) :
    roundMag q = (n : ℚ) * (2 : ℚ) ^ (e - 52) := by
  unfold roundMag ulp
  rw [exponent_eq q e h1 h2 h3, hn]

/-- Rounding leaves the value of a double as it is. -/
theorem round_of_isDouble (q : ℚ) (z : Bool) (h : isDouble q) :
    (round q z).isFinite = true ∧ (round q z).val = q := by
  by_cases hq : q = 0
  · subst hq
    rw [round_zero]
    cases z <;> simp [Double.isFinite, Double.val]
  · rcases h with h | ⟨h1, h2⟩
    · exact absurd h hq
    · unfold round
      rw [if_neg hq, h1, if_neg (not_le.mpr h2)]
      refine ⟨rfl, ?_⟩
      by_cases hneg : q < 0
      · simp [Double.val, hneg, abs_of_neg hneg]
      · simp [Double.val, hneg, abs_of_nonneg (not_lt.mp hneg)]

theorem isDouble_one : isDouble 1 := by
  right
  have h : roundMag 1 = ((2 ^ 52 : ℤ) : ℚ) * (2 : ℚ) ^ ((0 : ℤ) - 52) := by
    apply roundMag_eval 1 0 (2 ^ 52) (by norm_num) (by norm_num) (by norm_num)
    have : |(1 : ℚ)| / (2 : ℚ) ^ ((0 : ℤ) - 52) = ((2 ^ 52 : ℤ) : ℚ) := by norm_num
    rw [this, roundHalfEven_intCast]
  refine ⟨?_, by norm_num⟩
  rw [h]
  norm_num

theorem isDouble_two : isDouble 2 := by
  right
  have h : roundMag 2 = ((2 ^ 52 : ℤ) : ℚ) * (2 : ℚ) ^ ((1 : ℤ) - 52) := by
    apply roundMag_eval 2 1 (2 ^ 52) (by norm_num) (by norm_num) (by norm_num)
    have : |(2 : ℚ)| / (2 : ℚ) ^ ((1 : ℤ) - 52) = ((2 ^ 52 : ℤ) : ℚ) := by norm_num
    rw [this, roundHalfEven_intCast]
  refine ⟨?_, by norm_num⟩
  rw [h]
  norm_num

theorem isDouble_three : isDouble 3 := by
  right
  have h : roundMag 3 = ((3 * 2 ^ 51 : ℤ) : ℚ) * (2 : ℚ) ^ ((1 : ℤ) - 52) := by
    apply roundMag_eval 3 1 (3 * 2 ^ 51) (by norm_num) (by norm_num) (by norm_num)
    have : |(3 : ℚ)| / (2 : ℚ) ^ ((1 : ℤ) - 52) = ((3 * 2 ^ 51 : ℤ) : ℚ) := by norm_num
    rw [this, roundHalfEven_intCast]
  refine ⟨?_, by norm_num⟩
  rw [h]
  norm_num

/-- The sum `2^54 + 1` is not a double: it rounds to `2^54`. -/
theorem round_two_pow_54_add_one (z : Bool) :
    round ((2 : ℚ) ^ 54 + 1) z = Double.fin false ((2 : ℚ) ^ 54) := by
  have h : roundMag ((2 : ℚ) ^ 54 + 1) = ((2 ^ 52 : ℤ) : ℚ) * (2 : ℚ) ^ ((54 : ℤ) - 52) := by
    apply roundMag_eval _ 54 (2 ^ 52) (by norm_num) (by norm_num) (by norm_num)
    apply roundHalfEven_of_lt
    · norm_num
    · norm_num
  unfold round
  rw [h]
  norm_num

/-- The product `2 * 2^1023` overflows: it rounds to `+inf`. -/
theorem round_two_pow_1024 (z : Bool) :
    round ((2 : ℚ) ^ (1024 : ℤ)) z = Double.inf false := by
  have h : roundMag ((2 : ℚ) ^ (1024 : ℤ))
      = ((2 ^ 52 : ℤ) : ℚ) * (2 : ℚ) ^ ((1024 : ℤ) - 52) := by
    apply roundMag_eval _ 1024 (2 ^ 52) (by norm_num) (by norm_num) (by norm_num)
    have : |(2 : ℚ) ^ (1024 : ℤ)| / (2 : ℚ) ^ ((1024 : ℤ) - 52) = ((2 ^ 52 : ℤ) : ℚ) := by
      norm_num
    rw [this, roundHalfEven_intCast]
  unfold round
  rw [h]
  norm_num

end IEEE

end KDL

namespace KDL

namespace IEEE

/-! ## Doubles: the round trips of `Add`/`Subtract` and `Multiply`/`Divide` -/

theorem val_neg_fin (t : Bool) (q : ℚ) : (Double.fin (!t) q).val = -(Double.fin t q).val := by
  cases t <;> simp [Double.val]

theorem exists_fin_of_isFinite (x : Double) (h : x.isFinite = true) :
    ∃ s m, x = Double.fin s m := by
  cases x with
  | fin s m => exact ⟨s, m, rfl⟩
  | inf s => simp [Double.isFinite] at h
  | nan => simp [Double.isFinite] at h

/-- When the sum `x + y` of two finite doubles is a double, `(x + y) - y` has
the value of `x`. -/
theorem sub_add_exact (x y : Double) (hx : x.isFinite = true) (hy : y.isFinite = true)
    (hxd : isDouble x.val) (hs : isDouble (x.val + y.val)) :
    ((x.add y).sub y).isFinite = true ∧ ((x.add y).sub y).val = x.val := by
  obtain ⟨s, p, rfl⟩ := exists_fin_of_isFinite x hx
  obtain ⟨t, q, rfl⟩ := exists_fin_of_isFinite y hy
  simp only [Double.add]
  obtain ⟨h1, h2⟩ := round_of_isDouble _ (s && t) hs
  obtain ⟨s', m', hd⟩ := exists_fin_of_isFinite _ h1
  rw [hd] at h2 ⊢
  simp only [Double.sub, Double.neg, Double.add]
  have hv : (Double.fin s' m').val + (Double.fin (!t) q).val = (Double.fin s p).val := by
    rw [val_neg_fin, h2]
    ring
  rw [hv]
  exact round_of_isDouble _ _ hxd

/-- When the product `k * x` of two finite doubles, `k` not zero, is a double,
`(k * x) / k` has the value of `x`. -/
theorem div_mul_exact (k x : Double) (hk : k.isFinite = true) (hk0 : k.val ≠ 0)
    (hx : x.isFinite = true) (hxd : isDouble x.val) (hp : isDouble (k.val * x.val)) :
    ((k.mul x).div k).isFinite = true ∧ ((k.mul x).div k).val = x.val := by
  obtain ⟨s, p, rfl⟩ := exists_fin_of_isFinite x hx
  obtain ⟨t, q, rfl⟩ := exists_fin_of_isFinite k hk
  simp only [Double.mul]
  obtain ⟨h1, h2⟩ := round_of_isDouble _ (xor t s) hp
  obtain ⟨s', m', hd⟩ := exists_fin_of_isFinite _ h1
  rw [hd] at h2 ⊢
  have hq : q ≠ 0 := by
    intro h
    apply hk0
    cases t <;> simp [Double.val, h]
  simp only [Double.div, if_neg hq]
  have hv : (Double.fin s' m').val / (Double.fin t q).val = (Double.fin s p).val := by
    rw [h2]
    field_simp
  rw [hv]
  exact round_of_isDouble _ _ hxd

/-- A tolerance `eps >= 0` stays `>= 0` in the product `abs(1) * eps`. -/
theorem le_zero_mul_one (eps : Double) (h : Double.le Double.zero eps = true) :
    Double.le (Double.fin false 0) (Double.mul Double.one.abs eps) = true := by
  cases eps with
  | nan => simp [Double.le, Double.zero] at h
  | inf t =>
    cases t
    · simp [Double.mul, Double.one, Double.abs, Double.le]
    · simp [Double.le, Double.zero] at h
  | fin t q =>
    have hv : 0 ≤ (Double.fin t q).val := by
      simpa [Double.le, Double.zero, Double.val] using h
    simp only [Double.mul, Double.one, Double.abs]
    have h1 : (Double.fin false 1).val * (Double.fin t q).val = (Double.fin t q).val := by
      simp [Double.val]
    rw [h1]
    generalize (Double.fin t q).val = v at hv
    have hd : decide (v < 0) = false := by simpa using hv
    unfold round
    rw [hd]
    split_ifs with ha hb
    · cases t <;> simp [Double.le, Double.val]
    · simp [Double.le]
    · simp [Double.le, Double.val, roundMag_nonneg]

/-- Two finite doubles of one value pass the test of `Equal` within every
tolerance `eps >= 0`. -/
theorem isMuchSmallerThan_of_val_eq (x y eps : Double) (hx : x.isFinite = true)
    (hy : y.isFinite = true) (hv : x.val = y.val) (heps : Double.le Double.zero eps = true) :
    isMuchSmallerThan (x.sub y) Double.one eps = true := by
  obtain ⟨s, p, rfl⟩ := exists_fin_of_isFinite x hx
  obtain ⟨t, q, rfl⟩ := exists_fin_of_isFinite y hy
  unfold isMuchSmallerThan
  simp only [Double.sub, Double.neg, Double.add]
  have h0 : (Double.fin s p).val + (Double.fin (!t) q).val = 0 := by
    rw [val_neg_fin, hv]
    ring
  rw [h0, round_zero]
  exact le_zero_mul_one eps heps

theorem isZero_vsub_of_val_eq (eps : Double) (heps : Double.le Double.zero eps = true) :
    ∀ (rs xs : List Double) (h : rs.length = xs.length),
      (∀ p ∈ rs.zip xs, p.1.isFinite = true ∧ p.2.isFinite = true ∧ p.1.val = p.2.val) →
      isZero (vsub rs xs h) eps = true := by
  intro rs
  induction rs with
  | nil => intro xs h _; simp [isZero, vsub]
  | cons r rs ih =>
    intro xs h hall
    cases xs with
    | nil => simp at h
    | cons x xs =>
      have hlen : rs.length = xs.length := by simpa using h
      have htail := ih xs hlen (fun p hp => hall p (by simp [hp]))
      obtain ⟨h1, h2, h3⟩ := hall (r, x) (by simp)
      simp only [isZero, vsub, List.zipWith_cons_cons, List.all_cons, Bool.and_eq_true] at htail ⊢
      exact ⟨isMuchSmallerThan_of_val_eq r x eps h1 h2 h3 heps, htail⟩

theorem roundtrip_add_sub_list :
    ∀ (xs ys : List Double),
      (∀ p ∈ xs.zip ys, p.1.isFinite = true ∧ p.2.isFinite = true ∧ isDouble p.1.val ∧
        isDouble (p.1.val + p.2.val)) →
      ∀ p ∈ (List.zipWith Double.sub (List.zipWith Double.add xs ys) ys).zip xs,
        p.1.isFinite = true ∧ p.2.isFinite = true ∧ p.1.val = p.2.val := by
  intro xs
  induction xs with
  | nil => intro ys _ p hp; simp at hp
  | cons x xs ih =>
    intro ys hall p hp
    cases ys with
    | nil => simp at hp
    | cons y ys =>
      simp only [List.zipWith_cons_cons, List.zip_cons_cons, List.mem_cons] at hp
      rcases hp with rfl | hp
      · obtain ⟨h1, h2, h3, h4⟩ := hall (x, y) (by simp)
        obtain ⟨h5, h6⟩ := sub_add_exact x y h1 h2 h3 h4
        exact ⟨h5, h1, h6⟩
      · exact ih ys (fun p' hp' => hall p' (by simp [hp'])) p hp

theorem roundtrip_mul_div_list (k : Double) (hk : k.isFinite = true) (hk0 : k.val ≠ 0) :
    ∀ (xs : List Double),
      (∀ x ∈ xs, x.isFinite = true ∧ isDouble x.val ∧ isDouble (k.val * x.val)) →
      ∀ p ∈ (vdiv (vscale k xs) k).zip xs,
        p.1.isFinite = true ∧ p.2.isFinite = true ∧ p.1.val = p.2.val := by
  intro xs
  induction xs with
  | nil => intro _ p hp; simp [vdiv, vscale] at hp
  | cons x xs ih =>
    intro hall p hp
    simp only [vdiv, vscale, List.map_cons, List.zip_cons_cons, List.mem_cons] at hp
    rcases hp with rfl | hp
    · obtain ⟨h1, h2, h3⟩ := hall x (by simp)
      obtain ⟨h5, h6⟩ := div_mul_exact k x hk hk0 h1 h2 h3
      exact ⟨h5, h1, h6⟩
    · exact ih (fun x' hx' => hall x' (by simp [hx'])) p (by simpa [vdiv, vscale] using hp)

end IEEE

end KDL

namespace KDL

namespace IEEE

/-! ## Doubles: the error of one rounding -/

theorem roundHalfEven_err (t : ℚ) : |(roundHalfEven t : ℚ) - t| ≤ 1 / 2 := by
  have h1 : (⌊t⌋ : ℚ) ≤ t := Int.floor_le t
  have h2 : t < ⌊t⌋ + 1 := Int.lt_floor_add_one t
  unfold roundHalfEven
  split_ifs with ha hb hc
  · rw [abs_le]; constructor <;> linarith
  · push_cast
    rw [abs_le]; constructor <;> linarith
  · rw [abs_le]; constructor <;> linarith
  · push_cast
    rw [abs_le]; constructor <;> linarith

theorem roundMag_zero : roundMag 0 = 0 := by
  simp [roundMag, roundHalfEven]

/-- In the normal range one rounding errs by at most `2^-53` of the magnitude. -/
theorem roundMag_err_normal (q : ℚ) (h : (2 : ℚ) ^ (-1022 : ℤ) ≤ |q|) :
    |roundMag q - abs q| ≤ (2 : ℚ) ^ (-53 : ℤ) * |q| := by
  have hpos : 0 < |q| := lt_of_lt_of_le (by positivity) h
  have he : -1022 ≤ Int.log 2 |q| :=
    (Int.zpow_le_iff_le_log (b := 2) (by norm_num) hpos).1 (by simpa using h)
  have hlow : (2 : ℚ) ^ (Int.log 2 |q|) ≤ |q| := by
    simpa using Int.zpow_log_le_self (b := 2) (by norm_num) hpos
  have hexp : exponent q = Int.log 2 |q| := max_eq_left he
  have hu : 0 < ulp q := ulp_pos q
  have hrne := roundHalfEven_err (|q| / ulp q)
  have heq : roundMag q - |q| = ((roundHalfEven (|q| / ulp q) : ℚ) - |q| / ulp q) * ulp q := by
    unfold roundMag
    field_simp
  rw [heq, abs_mul, abs_of_pos hu]
  have hulp : ulp q = (2 : ℚ) ^ (-52 : ℤ) * (2 : ℚ) ^ (Int.log 2 |q|) := by
    unfold ulp
    rw [hexp, ← zpow_add₀ (by norm_num : (2 : ℚ) ≠ 0)]
    congr 1
    ring
  calc |(roundHalfEven (|q| / ulp q) : ℚ) - |q| / ulp q| * ulp q
      ≤ 1 / 2 * ulp q := mul_le_mul_of_nonneg_right hrne hu.le
    _ = (2 : ℚ) ^ (-53 : ℤ) * (2 : ℚ) ^ (Int.log 2 |q|) := by
        rw [hulp]
        have : (1 / 2 : ℚ) * (2 : ℚ) ^ (-52 : ℤ) = (2 : ℚ) ^ (-53 : ℤ) := by norm_num
        rw [← mul_assoc, this]
    _ ≤ (2 : ℚ) ^ (-53 : ℤ) * |q| := mul_le_mul_of_nonneg_left hlow (by positivity)

/-- Below the normal range a number on the grid is rounded to itself. -/
theorem roundMag_exact_subnormal (q : ℚ) (hg : onGrid q) (h : |q| < (2 : ℚ) ^ (-1022 : ℤ)) :
    roundMag q = |q| := by
  by_cases hq : q = 0
  · subst hq
    simp [roundMag_zero]
  · have hpos : 0 < |q| := abs_pos.mpr hq
    have hlog : Int.log 2 |q| < -1022 :=
      (Int.lt_zpow_iff_log_lt (b := 2) (by norm_num) hpos).1 (by simpa using h)
    have hexp : exponent q = -1022 := max_eq_right (le_of_lt hlog)
    obtain ⟨k, hk⟩ := hg
    have hulp : ulp q = (2 : ℚ) ^ (-1074 : ℤ) := by
      unfold ulp
      rw [hexp]
      norm_num
    have ht : |q| / ulp q = ((|k| : ℤ) : ℚ) := by
      rw [hulp, hk, abs_mul, abs_of_pos (by positivity : (0 : ℚ) < (2 : ℚ) ^ (-1074 : ℤ))]
      rw [mul_div_assoc, div_self (by positivity), mul_one]
      push_cast
      rfl
    unfold roundMag
    rw [ht, roundHalfEven_intCast, hulp, hk, abs_mul,
      abs_of_pos (by positivity : (0 : ℚ) < (2 : ℚ) ^ (-1074 : ℤ))]
    push_cast
    rfl

/-- A number on the grid, a sum or difference of doubles for one, is rounded
with an error of at most `2^-53` of its magnitude. -/
theorem roundMag_err_grid (q : ℚ) (hg : onGrid q) :
    |roundMag q - abs q| ≤ (2 : ℚ) ^ (-53 : ℤ) * |q| := by
  by_cases h : (2 : ℚ) ^ (-1022 : ℤ) ≤ |q|
  · exact roundMag_err_normal q h
  · rw [roundMag_exact_subnormal q hg (not_le.mp h)]
    simp only [sub_self, abs_zero]
    positivity

/-- What rounding delivers is on the grid. -/
theorem roundMag_onGrid (q : ℚ) : onGrid (roundMag q) := by
  have he : -1022 ≤ exponent q := le_max_right _ _
  obtain ⟨n, hn⟩ : ∃ n : ℕ, exponent q - 52 = (n : ℤ) + (-1074) :=
    ⟨(exponent q + 1022).toNat, by omega⟩
  refine ⟨roundHalfEven (|q| / ulp q) * 2 ^ n, ?_⟩
  unfold roundMag
  have : ulp q = (2 : ℚ) ^ n * (2 : ℚ) ^ (-1074 : ℤ) := by
    unfold ulp
    rw [hn, zpow_add₀ (by norm_num : (2 : ℚ) ≠ 0), zpow_natCast]
  rw [this]
  push_cast
  ring

theorem onGrid_neg (q : ℚ) (h : onGrid q) : onGrid (-q) := by
  obtain ⟨k, hk⟩ := h
  exact ⟨-k, by rw [hk]; push_cast; ring⟩

theorem onGrid_add (p q : ℚ) (hp : onGrid p) (hq : onGrid q) : onGrid (p + q) := by
  obtain ⟨k, hk⟩ := hp
  obtain ⟨l, hl⟩ := hq
  exact ⟨k + l, by rw [hk, hl]; push_cast; ring⟩

theorem onGrid_of_isDouble (q : ℚ) (h : isDouble q) : onGrid q := by
  rcases h with h | ⟨h1, _⟩
  · exact ⟨0, by simp [h]⟩
  · have hg := roundMag_onGrid q
    rw [h1] at hg
    by_cases hq : 0 ≤ q
    · rwa [abs_of_nonneg hq] at hg
    · rw [abs_of_neg (not_le.mp hq)] at hg
      simpa using onGrid_neg _ hg

/-- The value a finite result of `round` has: on the grid, and within the
rounding error of `q` when `q` is on the grid or in the normal range. -/
theorem round_val (q : ℚ) (z : Bool) (hfin : (round q z).isFinite = true) :
    onGrid (round q z).val ∧ |(round q z).val| = roundMag q ∧
    (onGrid q ∨ (2 : ℚ) ^ (-1022 : ℤ) ≤ |q| →
      |(round q z).val - q| ≤ (2 : ℚ) ^ (-53 : ℤ) * |q|) := by
  by_cases hq : q = 0
  · subst hq
    rw [round_zero]
    have hv : (Double.fin z 0).val = 0 := by cases z <;> simp [Double.val]
    rw [hv]
    exact ⟨⟨0, by simp⟩, by simp [roundMag_zero], fun _ => by simp⟩
  · unfold round at hfin ⊢
    rw [if_neg hq] at hfin ⊢
    by_cases ho : (2 : ℚ) ^ (1024 : ℤ) ≤ roundMag q
    · rw [if_pos ho] at hfin
      simp [Double.isFinite] at hfin
    · rw [if_neg ho]
      have hm := roundMag_nonneg q
      by_cases hneg : q < 0
      · have hv : (Double.fin (decide (q < 0)) (roundMag q)).val = -roundMag q := by
          simp [Double.val, hneg]
        rw [hv]
        refine ⟨onGrid_neg _ (roundMag_onGrid q), by rw [abs_neg, abs_of_nonneg hm], ?_⟩
        intro h
        have herr : |roundMag q - abs q| ≤ (2 : ℚ) ^ (-53 : ℤ) * |q| := by
          rcases h with h | h
          · exact roundMag_err_grid q h
          · exact roundMag_err_normal q h
        have : -roundMag q - q = -(roundMag q - |q|) := by
          rw [abs_of_neg hneg]; ring
        rw [this, abs_neg]
        exact herr
      · have hv : (Double.fin (decide (q < 0)) (roundMag q)).val = roundMag q := by
          simp [Double.val, hneg]
        rw [hv]
        refine ⟨roundMag_onGrid q, abs_of_nonneg hm, ?_⟩
        intro h
        have herr : |roundMag q - abs q| ≤ (2 : ℚ) ^ (-53 : ℤ) * |q| := by
          rcases h with h | h
          · exact roundMag_err_grid q h
          · exact roundMag_err_normal q h
        have habs : abs q = q := abs_of_nonneg (not_lt.mp hneg)
        rw [habs] at herr
        rw [habs]
        exact herr

end IEEE

end KDL

namespace KDL

namespace IEEE

/-! ## Doubles: the error of a round trip -/

theorem round_eq_fin (q : ℚ) (z : Bool) (hfin : (round q z).isFinite = true) :
    ∃ s, round q z = Double.fin s (roundMag q) := by
  by_cases hq : q = 0
  · subst hq
    exact ⟨z, by rw [round_zero, roundMag_zero]⟩
  · unfold round at hfin ⊢
    rw [if_neg hq] at hfin ⊢
    by_cases ho : (2 : ℚ) ^ (1024 : ℤ) ≤ roundMag q
    · rw [if_pos ho] at hfin
      simp [Double.isFinite] at hfin
    · rw [if_neg ho]
      exact ⟨_, rfl⟩

theorem round_isFinite_of_lt (q : ℚ) (z : Bool) (h : roundMag q < (2 : ℚ) ^ (1024 : ℤ)) :
    (round q z).isFinite = true := by
  unfold round
  split_ifs with h1 h2
  · rfl
  · exact absurd h (not_lt.mpr h2)
  · rfl

theorem roundMag_le (q : ℚ) (hg : onGrid q) :
    roundMag q ≤ (1 + (2 : ℚ) ^ (-53 : ℤ)) * |q| := by
  have h := roundMag_err_grid q hg
  rw [abs_le] at h
  linarith [h.2]

theorem abs_lt_of_isDouble (q : ℚ) (h : isDouble q) : |q| < (2 : ℚ) ^ (1024 : ℤ) := by
  rcases h with h | ⟨_, h⟩
  · rw [h, abs_zero]
    positivity
  · exact h

/-- Two finite doubles whose values differ by little pass the test of `Equal`
within a tolerance that is a double and covers the difference and its
rounding. -/
theorem isMuchSmallerThan_of_close (r x eps : Double) (hr : r.isFinite = true)
    (hx : x.isFinite = true) (hrg : onGrid r.val) (hxg : onGrid x.val)
    (he : eps.isFinite = true) (hed : isDouble eps.val)
    (hb : (1 + (2 : ℚ) ^ (-53 : ℤ)) * |r.val - x.val| ≤ eps.val) :
    isMuchSmallerThan (r.sub x) Double.one eps = true := by
  obtain ⟨s, p, rfl⟩ := exists_fin_of_isFinite r hr
  obtain ⟨t, q, rfl⟩ := exists_fin_of_isFinite x hx
  obtain ⟨w, e, rfl⟩ := exists_fin_of_isFinite eps he
  unfold isMuchSmallerThan
  simp only [Double.sub, Double.neg, Double.add, Double.mul, Double.one, Double.abs]
  have hq : (Double.fin s p).val + (Double.fin (!t) q).val
      = (Double.fin s p).val - (Double.fin t q).val := by
    rw [val_neg_fin]
    ring
  rw [hq]
  have hg : onGrid ((Double.fin s p).val - (Double.fin t q).val) := by
    rw [sub_eq_add_neg]
    exact onGrid_add _ _ hrg (onGrid_neg _ hxg)
  have hm := roundMag_le _ hg
  have hlt : roundMag ((Double.fin s p).val - (Double.fin t q).val) < (2 : ℚ) ^ (1024 : ℤ) :=
    lt_of_le_of_lt (le_trans hm hb) (lt_of_le_of_lt (le_abs_self _) (abs_lt_of_isDouble _ hed))
  obtain ⟨s1, h1⟩ := round_eq_fin _ (s && !t) (round_isFinite_of_lt _ _ hlt)
  rw [h1]
  have h1e : (Double.fin false 1).val * (Double.fin w e).val = (Double.fin w e).val := by
    simp [Double.val]
  rw [h1e]
  obtain ⟨h2, h3⟩ := round_of_isDouble _ (xor false w) hed
  obtain ⟨s2, m2, h4⟩ := exists_fin_of_isFinite _ h2
  rw [h4] at h3 ⊢
  simp only [Double.le, decide_eq_true_eq]
  rw [h3]
  have : (Double.fin false (roundMag ((Double.fin s p).val - (Double.fin t q).val))).val
      = roundMag ((Double.fin s p).val - (Double.fin t q).val) := by
    simp [Double.val]
  rw [this]
  exact le_trans hm hb

/-- The two roundings of `(a + b) - b` leave it within `2^-51 (|a| + |b|)` of
`a`, the rounding of the comparison included. -/
theorem add_sub_bound (a b D D2 : ℚ)
    (h1 : |D - (a + b)| ≤ (2 : ℚ) ^ (-53 : ℤ) * |a + b|)
    (h2 : |D2 - (D - b)| ≤ (2 : ℚ) ^ (-53 : ℤ) * |D - b|) :
    (1 + (2 : ℚ) ^ (-53 : ℤ)) * |D2 - a| ≤ (2 : ℚ) ^ (-51 : ℤ) * (|a| + |b|) := by
  have hu : (2 : ℚ) ^ (-53 : ℤ) = 1 / 9007199254740992 := by norm_num
  have hv : (2 : ℚ) ^ (-51 : ℤ) = 1 / 2251799813685248 := by norm_num
  rw [hu] at h1 h2 ⊢
  rw [hv]
  have hT : |a + b| ≤ |a| + |b| := abs_add a b
  have hDb : |D - b| ≤ |D - (a + b)| + |a| := by
    have : D - b = (D - (a + b)) + a := by ring
    rw [this]
    exact abs_add _ _
  have hq : |D2 - a| ≤ |D2 - (D - b)| + |D - (a + b)| := by
    have : D2 - a = (D2 - (D - b)) + (D - (a + b)) := by ring
    rw [this]
    exact abs_add _ _
  have ha := abs_nonneg a
  have hb := abs_nonneg b
  linarith

/-- The rounding of `k * a` leaves `(k * a) / k` within `2^-53 |a|` of `a`. -/
theorem mul_div_bound_one (k a D : ℚ) (hk : k ≠ 0)
    (h1 : |D - k * a| ≤ (2 : ℚ) ^ (-53 : ℤ) * |k * a|) :
    |D / k - a| ≤ (2 : ℚ) ^ (-53 : ℤ) * |a| := by
  have hkpos : 0 < |k| := abs_pos.mpr hk
  have : D / k - a = (D - k * a) / k := by field_simp
  rw [this, abs_div, div_le_iff₀ hkpos]
  calc |D - k * a| ≤ (2 : ℚ) ^ (-53 : ℤ) * |k * a| := h1
    _ = (2 : ℚ) ^ (-53 : ℤ) * |a| * |k| := by rw [abs_mul]; ring

/-- The two roundings of `(k * a) / k` leave it within `2^-51 |a|` of `a`, the
rounding of the comparison included. -/
theorem mul_div_bound (k a D D2 : ℚ)
    (h3 : |D / k - a| ≤ (2 : ℚ) ^ (-53 : ℤ) * |a|)
    (h2 : |D2 - D / k| ≤ (2 : ℚ) ^ (-53 : ℤ) * |D / k|) :
    (1 + (2 : ℚ) ^ (-53 : ℤ)) * |D2 - a| ≤ (2 : ℚ) ^ (-51 : ℤ) * |a| := by
  have hu : (2 : ℚ) ^ (-53 : ℤ) = 1 / 9007199254740992 := by norm_num
  have hv : (2 : ℚ) ^ (-51 : ℤ) = 1 / 2251799813685248 := by norm_num
  rw [hu] at h2 h3 ⊢
  rw [hv]
  have hDk : |D / k| ≤ |D / k - a| + |a| := by
    have : D / k = (D / k - a) + a := by ring
    conv_lhs => rw [this]
    exact abs_add _ _
  have hq : |D2 - a| ≤ |D2 - D / k| + |D / k - a| := by
    have : D2 - a = (D2 - D / k) + (D / k - a) := by ring
    rw [this]
    exact abs_add _ _
  have ha := abs_nonneg a
  linarith

/-- A quotient within `2^-53 |a|` of an `a` of magnitude `2^-1021` or more is
in the normal range. -/
theorem normal_of_close (a Q : ℚ) (h3 : |Q - a| ≤ (2 : ℚ) ^ (-53 : ℤ) * |a|)
    (ha : (2 : ℚ) ^ (-1021 : ℤ) ≤ |a|) : (2 : ℚ) ^ (-1022 : ℤ) ≤ |Q| := by
  have h1 : |a| ≤ |Q| + |Q - a| := by
    have : a = Q - (Q - a) := by ring
    conv_lhs => rw [this]
    exact abs_sub _ _
  have hu : (2 : ℚ) ^ (-53 : ℤ) = 1 / 9007199254740992 := by norm_num
  have hw : (2 : ℚ) ^ (-1021 : ℤ) = 2 * (2 : ℚ) ^ (-1022 : ℤ) := by
    rw [show (-1021 : ℤ) = 1 + (-1022) by norm_num, zpow_add₀ (by norm_num : (2 : ℚ) ≠ 0)]
    norm_num
  rw [hu] at h3
  rw [hw] at ha
  have hp : (0 : ℚ) < (2 : ℚ) ^ (-1022 : ℤ) := by positivity
  linarith

end IEEE

end KDL

namespace KDL

namespace IEEE

/-- For finite doubles `x`, `y` and no overflow, `(x + y) - y` passes the test
of `Equal` against `x` within every double `eps >= 2^-51 (|x| + |y|)`. -/
theorem sub_add_close (x y eps : Double) (hx : x.isFinite = true) (hy : y.isFinite = true)
    (hxd : isDouble x.val) (hyd : isDouble y.val)
    (hd : (x.add y).isFinite = true) (hd2 : ((x.add y).sub y).isFinite = true)
    (he : eps.isFinite = true) (hed : isDouble eps.val)
    (hb : (2 : ℚ) ^ (-51 : ℤ) * (|x.val| + |y.val|) ≤ eps.val) :
    isMuchSmallerThan (((x.add y).sub y).sub x) Double.one eps = true := by
  have hxg := onGrid_of_isDouble _ hxd
  have hyg := onGrid_of_isDouble _ hyd
  obtain ⟨s, p, rfl⟩ := exists_fin_of_isFinite x hx
  obtain ⟨t, q, rfl⟩ := exists_fin_of_isFinite y hy
  simp only [Double.add] at hd hd2 ⊢
  obtain ⟨hDg, _, hDe⟩ := round_val _ (s && t) hd
  have h1 := hDe (Or.inl (onGrid_add _ _ hxg hyg))
  obtain ⟨s', m', hd'⟩ := exists_fin_of_isFinite _ hd
  rw [hd'] at hd2 hDg h1 ⊢
  have hsub : (Double.fin s' m').sub (Double.fin t q)
      = round ((Double.fin s' m').val - (Double.fin t q).val) (s' && !t) := by
    simp only [Double.sub, Double.neg, Double.add]
    rw [val_neg_fin, sub_eq_add_neg]
  rw [hsub] at hd2 ⊢
  obtain ⟨hD2g, _, hD2e⟩ := round_val _ (s' && !t) hd2
  have hg : onGrid ((Double.fin s' m').val - (Double.fin t q).val) := by
    rw [sub_eq_add_neg]
    exact onGrid_add _ _ hDg (onGrid_neg _ hyg)
  have h2 := hD2e (Or.inl hg)
  apply isMuchSmallerThan_of_close _ (Double.fin s p) eps hd2 rfl hD2g hxg he hed
  exact le_trans (add_sub_bound _ _ _ _ h1 h2) hb

/-- For finite doubles `k ≠ 0` and `x`, no overflow and no underflow,
`(k * x) / k` passes the test of `Equal` against `x` within every double
`eps >= 2^-51 |x|`. -/
theorem div_mul_close (k x eps : Double) (hk : k.isFinite = true) (hk0 : k.val ≠ 0)
    (hx : x.isFinite = true) (hxd : isDouble x.val)
    (hd : (k.mul x).isFinite = true) (hd2 : ((k.mul x).div k).isFinite = true)
    (hn : x.val = 0 ∨
      ((2 : ℚ) ^ (-1021 : ℤ) ≤ |x.val| ∧ (2 : ℚ) ^ (-1022 : ℤ) ≤ |k.val * x.val|))
    (he : eps.isFinite = true) (hed : isDouble eps.val)
    (hb : (2 : ℚ) ^ (-51 : ℤ) * |x.val| ≤ eps.val) :
    isMuchSmallerThan (((k.mul x).div k).sub x) Double.one eps = true := by
  rcases hn with h0 | ⟨hn1, hn2⟩
  · have hp : isDouble (k.val * x.val) := Or.inl (by rw [h0, mul_zero])
    obtain ⟨h1, h2⟩ := div_mul_exact k x hk hk0 hx hxd hp
    apply isMuchSmallerThan_of_val_eq _ _ _ h1 hx h2
    obtain ⟨w, e, rfl⟩ := exists_fin_of_isFinite eps he
    have : 0 ≤ (Double.fin w e).val := by
      rw [h0, abs_zero, mul_zero] at hb
      exact hb
    simp only [Double.le, Double.zero, decide_eq_true_eq]
    simpa [Double.val] using this
  · have hxg := onGrid_of_isDouble _ hxd
    obtain ⟨s, p, rfl⟩ := exists_fin_of_isFinite x hx
    obtain ⟨t, q, rfl⟩ := exists_fin_of_isFinite k hk
    have hq : q ≠ 0 := by
      intro h
      apply hk0
      cases t <;> simp [Double.val, h]
    simp only [Double.mul] at hd hd2 ⊢
    obtain ⟨_, _, hDe⟩ := round_val _ (xor t s) hd
    have h1 := hDe (Or.inr hn2)
    obtain ⟨s', m', hd'⟩ := exists_fin_of_isFinite _ hd
    rw [hd'] at hd2 h1 ⊢
    have hdiv : (Double.fin s' m').div (Double.fin t q)
        = round ((Double.fin s' m').val / (Double.fin t q).val) (xor s' t) := by
      simp only [Double.div, if_neg hq]
    rw [hdiv] at hd2 ⊢
    have h3 := mul_div_bound_one _ _ _ hk0 h1
    obtain ⟨hD2g, _, hD2e⟩ := round_val _ (xor s' t) hd2
    have h2 := hD2e (Or.inr (normal_of_close _ _ h3 hn1))
    apply isMuchSmallerThan_of_close _ (Double.fin s p) eps hd2 rfl hD2g hxg he hed
    exact le_trans (mul_div_bound _ _ _ _ h3 h2) hb

theorem close_add_sub_list (eps : Double) (he : eps.isFinite = true) (hed : isDouble eps.val) :
    ∀ (xs ys : List Double) (h : (List.zipWith Double.sub (List.zipWith Double.add xs ys) ys).length
        = xs.length),
      (∀ x ∈ xs, x.isFinite = true ∧ isDouble x.val) →
      (∀ y ∈ ys, y.isFinite = true ∧ isDouble y.val) →
      (∀ r ∈ List.zipWith Double.add xs ys, r.isFinite = true) →
      (∀ r ∈ List.zipWith Double.sub (List.zipWith Double.add xs ys) ys, r.isFinite = true) →
      (∀ p ∈ xs.zip ys, (2 : ℚ) ^ (-51 : ℤ) * (|p.1.val| + |p.2.val|) ≤ eps.val) →
      isZero (vsub (List.zipWith Double.sub (List.zipWith Double.add xs ys) ys) xs h) eps
        = true := by
  intro xs
  induction xs with
  | nil => intro ys h _ _ _ _ _; simp [isZero, vsub]
  | cons x xs ih =>
    intro ys h hxs hys hd hd2 hb
    cases ys with
    | nil => simp at h
    | cons y ys =>
      simp only [List.zipWith_cons_cons, List.length_cons, add_left_inj] at h
      simp only [List.zipWith_cons_cons, List.mem_cons, forall_eq_or_imp] at hd hd2
      have htail := ih ys h (fun x' hx' => hxs x' (by simp [hx']))
        (fun y' hy' => hys y' (by simp [hy'])) hd.2 hd2.2
        (fun p hp => hb p (by simp [hp]))
      obtain ⟨hx1, hx2⟩ := hxs x (by simp)
      obtain ⟨hy1, hy2⟩ := hys y (by simp)
      have hhead := sub_add_close x y eps hx1 hy1 hx2 hy2 hd.1 hd2.1 he hed
        (hb (x, y) (by simp))
      simp only [isZero, vsub, List.zipWith_cons_cons, List.all_cons, Bool.and_eq_true]
        at htail ⊢
      exact ⟨hhead, htail⟩

theorem close_mul_div_list (k eps : Double) (hk : k.isFinite = true) (hk0 : k.val ≠ 0)
    (he : eps.isFinite = true) (hed : isDouble eps.val) :
    ∀ (xs : List Double) (h : (vdiv (vscale k xs) k).length = xs.length),
      (∀ x ∈ xs, x.isFinite = true ∧ isDouble x.val) →
      (∀ r ∈ vscale k xs, r.isFinite = true) →
      (∀ r ∈ vdiv (vscale k xs) k, r.isFinite = true) →
      (∀ x ∈ xs, x.val = 0 ∨
        ((2 : ℚ) ^ (-1021 : ℤ) ≤ |x.val| ∧ (2 : ℚ) ^ (-1022 : ℤ) ≤ |k.val * x.val|)) →
      (∀ x ∈ xs, (2 : ℚ) ^ (-51 : ℤ) * |x.val| ≤ eps.val) →
      isZero (vsub (vdiv (vscale k xs) k) xs h) eps = true := by
  intro xs
  induction xs with
  | nil => intro h _ _ _ _ _; simp [isZero, vsub, vdiv, vscale]
  | cons x xs ih =>
    intro h hxs hd hd2 hn hb
    simp only [vdiv, vscale, List.map_cons, List.mem_cons, forall_eq_or_imp] at hd hd2
    have hlen : (vdiv (vscale k xs) k).length = xs.length := by simp [vdiv, vscale]
    have htail := ih hlen (fun x' hx' => hxs x' (by simp [hx']))
      (by simpa [vscale] using hd.2) (by simpa [vdiv, vscale] using hd2.2)
      (fun x' hx' => hn x' (by simp [hx'])) (fun x' hx' => hb x' (by simp [hx']))
    obtain ⟨hx1, hx2⟩ := hxs x (by simp)
    have hhead := div_mul_close k x eps hk hk0 hx1 hx2 hd.1 hd2.1 (hn x (by simp)) he hed
      (hb x (by simp))
    simp only [isZero, vsub, vdiv, vscale, List.map_cons, List.zipWith_cons_cons, List.all_cons,
      Bool.and_eq_true] at htail ⊢
    exact ⟨hhead, htail⟩

end IEEE

end KDL

namespace KDL

namespace IEEE

/-! ## Doubles: the claims on `Add`/`Subtract` and `Multiply`/`Divide` -/

theorem round_neg_one (z : Bool) : round (-1) z = Double.fin true 1 := by
  have h : roundMag (-1) = ((2 ^ 52 : ℤ) : ℚ) * (2 : ℚ) ^ ((0 : ℤ) - 52) := by
    apply roundMag_eval (-1) 0 (2 ^ 52) (by norm_num) (by norm_num) (by norm_num)
    have : |(-1 : ℚ)| / (2 : ℚ) ^ ((0 : ℤ) - 52) = ((2 ^ 52 : ℤ) : ℚ) := by norm_num
    rw [this, roundHalfEven_intCast]
  unfold round
  rw [h]
  norm_num

theorem round_half (z : Bool) : round (1 / 2) z = Double.fin false (1 / 2) := by
  have habs : |(1 / 2 : ℚ)| = 1 / 2 := abs_of_pos (by norm_num)
  have h : roundMag (1 / 2) = ((2 ^ 52 : ℤ) : ℚ) * (2 : ℚ) ^ ((-1 : ℤ) - 52) := by
    apply roundMag_eval (1 / 2) (-1) (2 ^ 52) (by rw [habs]; norm_num)
      (by rw [habs]; norm_num) (by norm_num)
    have : |(1 / 2 : ℚ)| / (2 : ℚ) ^ ((-1 : ℤ) - 52) = ((2 ^ 52 : ℤ) : ℚ) := by
      rw [habs]; norm_num
    rw [this, roundHalfEven_intCast]
  unfold round
  rw [h]
  norm_num

theorem Equal_singleton (x y eps : Double) :
    Equal (JntArray.mk [x]) (JntArray.mk [y]) eps
      = Double.le (x.sub y).abs (Double.mul Double.one.abs eps) := by
  simp [Equal, JntArray.rows, isZero, vsub, isMuchSmallerThan]

theorem le_fin_fin (p q : ℚ) :
    Double.le (Double.fin false p) (Double.fin false q) = decide (p ≤ q) := by
  simp [Double.le, Double.val]

theorem finite_one : Example.one.Finite := by
  intro x hx
  simp only [Example.one, List.mem_singleton] at hx
  subst hx
  exact ⟨rfl, by simpa [Double.val] using isDouble_one⟩

theorem finite_two : Example.two.Finite := by
  intro x hx
  simp only [Example.two, List.mem_singleton] at hx
  subst hx
  exact ⟨rfl, by simpa [Double.val] using isDouble_two⟩

theorem sameValues_of_zip (r a : List Double)
    (h : ∀ p ∈ r.zip a, p.1.isFinite = true ∧ p.2.isFinite = true ∧ p.1.val = p.2.val) :
    SameValues (JntArray.mk r) (JntArray.mk a) := h

/-- C12, as the code has it on doubles: for joint arrays `a`, `b` of one length
`n` and any `d`, `d2`, the calls `Add(a, b, d)` and `Subtract(d, b, d2)` return
and `d2` has length `n`. When `a` and `b` hold finite doubles and every sum
`a[i] + b[i]` is a double (nothing is rounded), `d2[i]` has the value of `a[i]`
at every index and `Equal(d2, a, eps)` holds for every `eps >= 0`. When sums are
rounded but neither call overflows, `Equal(d2, a, eps)` holds for every double
`eps` with `eps >= 2^-51 (|a[i]| + |b[i]|)` at every index. -/
theorem Add_Subtract_doubles (a b d d2 : JntArray) (h : a.size = b.size) :
    ∃ d' d2', Add a b d = some d' ∧ Subtract d' b d2 = some d2' ∧ d2'.size = a.size ∧
      (a.Finite → b.Finite → ExactSums a b →
        SameValues d2' a ∧
        ∀ eps : Double, Double.le Double.zero eps = true → Equal d2' a eps = true) ∧
      (a.Finite → b.Finite → d'.NoOverflow → d2'.NoOverflow →
        ∀ eps : Double, eps.isFinite = true → isDouble eps.val →
          (∀ p ∈ a.data.zip b.data,
            (2 : ℚ) ^ (-51 : ℤ) * (|p.1.val| + |p.2.val|) ≤ eps.val) →
          Equal d2' a eps = true) := by
  have hlen : a.data.length = b.data.length := h
  have hlen1 : (vadd a.data b.data hlen).length = b.data.length := by simp [vadd, hlen]
  have hlen2 : (List.zipWith Double.sub (List.zipWith Double.add a.data b.data) b.data).length
      = a.data.length := by simp [hlen]
  refine ⟨{ d with data := vadd a.data b.data hlen },
    { d2 with data := vsub (vadd a.data b.data hlen) b.data hlen1 }, ?_, ?_, ?_, ?_, ?_⟩
  · simp [Add, hlen, assign]
  · simp [Subtract, hlen1, assign]
  · simpa [JntArray.size, vsub, vadd] using hlen2
  · intro ha hb hex
    have hpairs : ∀ p ∈ a.data.zip b.data, p.1.isFinite = true ∧ p.2.isFinite = true ∧
        isDouble p.1.val ∧ isDouble (p.1.val + p.2.val) := by
      intro p hp
      have hm := List.of_mem_zip hp
      exact ⟨(ha p.1 hm.1).1, (hb p.2 hm.2).1, (ha p.1 hm.1).2, hex p hp⟩
    have hsame := roundtrip_add_sub_list a.data b.data hpairs
    refine ⟨hsame, ?_⟩
    intro eps heps
    unfold Equal
    rw [dif_neg (by simpa [JntArray.rows, vsub, vadd] using hlen2)]
    exact isZero_vsub_of_val_eq eps heps _ _ _ hsame
  · intro ha hb hd hd2 eps he hed hcov
    unfold Equal
    rw [dif_neg (by simpa [JntArray.rows, vsub, vadd] using hlen2)]
    exact close_add_sub_list eps he hed a.data b.data hlen2 ha hb hd hd2 hcov

/-- C12 at `a = [1]`, `b = [2]`: the sum 3 is a double, and `Equal(d2, a, 0)`
holds. -/
theorem Add_Subtract_doubles_witness :
    Example.one.size = Example.two.size ∧ Example.one.Finite ∧ Example.two.Finite ∧
    ExactSums Example.one Example.two ∧
    ∃ d' d2', Add Example.one Example.two Example.empty = some d' ∧
      Subtract d' Example.two Example.empty = some d2' ∧ d2'.size = Example.one.size ∧
      SameValues d2' Example.one ∧ Equal d2' Example.one Double.zero = true := by
  have hex : ExactSums Example.one Example.two := by
    intro p hp
    simp only [Example.one, Example.two, List.zip_cons_cons, List.zip_nil_right,
      List.mem_singleton] at hp
    subst hp
    have : (Double.fin false 1).val + (Double.fin false 2).val = 3 := by
      simp only [Double.val]; norm_num
    rw [this]
    exact isDouble_three
  obtain ⟨d', d2', h1, h2, h3, h4, _⟩ :=
    Add_Subtract_doubles Example.one Example.two Example.empty Example.empty rfl
  obtain ⟨h5, h6⟩ := h4 finite_one finite_two hex
  refine ⟨rfl, finite_one, finite_two, hex, d', d2', h1, h2, h3, h5, h6 _ ?_⟩
  simp [Double.le, Double.zero, Double.val]

/-- C12 fails as stated: with `a = [1]` and `b = [2^54]` the sum is rounded to
`2^54`, so `Add` leaves `d = [2^54]` and `Subtract` leaves `d2 = [0]`, and
`Equal(d2, a, eps)` is `false` for `eps = 0` and for `eps = 1/2`. -/
theorem Add_Subtract_rounding :
    Example.one.size = Example.big.size ∧
    Add Example.one Example.big Example.empty = some Example.big ∧
    Subtract Example.big Example.big Example.empty
      = some (JntArray.mk [Double.fin false 0]) ∧
    Equal (JntArray.mk [Double.fin false 0]) Example.one Double.zero = false ∧
    Equal (JntArray.mk [Double.fin false 0]) Example.one (Double.fin false (1 / 2)) = false := by
  have hadd : (Double.fin false 1).add (Double.fin false ((2 : ℚ) ^ 54))
      = Double.fin false ((2 : ℚ) ^ 54) := by
    simp only [Double.add, Double.val, Bool.false_eq_true, if_false]
    rw [add_comm]
    exact round_two_pow_54_add_one _
  have hsub : (Double.fin false ((2 : ℚ) ^ 54)).sub (Double.fin false ((2 : ℚ) ^ 54))
      = Double.fin false 0 := by
    simp only [Double.sub, Double.neg, Double.add, Double.val]
    simp [round_zero]
  have hdiff : (Double.fin false 0).sub (Double.fin false 1) = Double.fin true 1 := by
    simp only [Double.sub, Double.neg, Double.add, Double.val]
    simp [round_neg_one]
  have hzero : Double.mul Double.one.abs Double.zero = Double.fin false 0 := by
    simp [Double.mul, Double.one, Double.zero, Double.abs, Double.val, round_zero]
  have hhalf : Double.mul Double.one.abs (Double.fin false (1 / 2))
      = Double.fin false (1 / 2) := by
    simp only [Double.mul, Double.one, Double.abs, Double.val, Bool.false_eq_true, if_false,
      one_mul]
    exact round_half _
  refine ⟨rfl, ?_, ?_, ?_, ?_⟩
  · simp [Add, Example.one, Example.big, Example.empty, assign, vadd, hadd]
  · simp [Subtract, Example.big, Example.empty, assign, vsub, hsub]
  · rw [Example.one, Equal_singleton, hdiff, hzero, Double.abs, le_fin_fin,
      decide_eq_false_iff_not]
    norm_num
  · rw [Example.one, Equal_singleton, hdiff, hhalf, Double.abs, le_fin_fin,
      decide_eq_false_iff_not]
    norm_num

/-- C13, as the code has it on doubles: after `Multiply(a, k, d)` and
`Divide(d, k, d2)` the array `d2` has the length of `a`. When `a` holds finite
doubles, `k` is finite and not zero, and every product `k * a[i]` is a double
(nothing is rounded), `d2[i]` has the value of `a[i]` at every index and
`Equal(d2, a, eps)` holds for every `eps >= 0`. When products are rounded but
nothing overflows or underflows, `Equal(d2, a, eps)` holds for every double
`eps` with `eps >= 2^-51 |a[i]|` at every index. -/
theorem Multiply_Divide_doubles (a d d2 : JntArray) (k : Double) :
    (Divide (Multiply a k d) k d2).size = a.size ∧
    (a.Finite → k.isFinite = true → k.val ≠ 0 → ExactProducts k a →
      SameValues (Divide (Multiply a k d) k d2) a ∧
      ∀ eps : Double, Double.le Double.zero eps = true →
        Equal (Divide (Multiply a k d) k d2) a eps = true) ∧
    (a.Finite → k.isFinite = true → k.val ≠ 0 →
      (Multiply a k d).NoOverflow → (Divide (Multiply a k d) k d2).NoOverflow →
      NoUnderflow k a →
      ∀ eps : Double, eps.isFinite = true → isDouble eps.val →
        (∀ x ∈ a.data, (2 : ℚ) ^ (-51 : ℤ) * |x.val| ≤ eps.val) →
        Equal (Divide (Multiply a k d) k d2) a eps = true) := by
  have hlen : (vdiv (vscale k a.data) k).length = a.data.length := by simp [vdiv, vscale]
  refine ⟨by simpa [JntArray.size, Divide, Multiply, assign] using hlen, ?_, ?_⟩
  · intro ha hk hk0 hex
    have hsame := roundtrip_mul_div_list k hk hk0 a.data
      (fun x hx => ⟨(ha x hx).1, (ha x hx).2, hex x hx⟩)
    refine ⟨hsame, ?_⟩
    intro eps heps
    unfold Equal
    rw [dif_neg (by simpa [JntArray.rows, Divide, Multiply, assign] using hlen)]
    exact isZero_vsub_of_val_eq eps heps _ _ _ hsame
  · intro ha hk hk0 hd hd2 hn eps he hed hcov
    unfold Equal
    rw [dif_neg (by simpa [JntArray.rows, Divide, Multiply, assign] using hlen)]
    exact close_mul_div_list k eps hk hk0 he hed a.data hlen ha hd hd2 hn hcov

/-- C13 at `a = [1]`, `k = 2`: the product 2 is a double, and `Equal(d2, a, 0)`
holds. -/
theorem Multiply_Divide_doubles_witness :
    Example.one.Finite ∧ (Double.fin false 2).val ≠ 0 ∧
    ExactProducts (Double.fin false 2) Example.one ∧
    Equal (Divide (Multiply Example.one (Double.fin false 2) Example.empty)
      (Double.fin false 2) Example.empty) Example.one Double.zero = true := by
  have hk0 : (Double.fin false 2).val ≠ 0 := by simp [Double.val]
  have hex : ExactProducts (Double.fin false 2) Example.one := by
    intro x hx
    simp only [Example.one, List.mem_singleton] at hx
    subst hx
    have : (Double.fin false 2).val * (Double.fin false 1).val = 2 := by
      simp only [Double.val]; norm_num
    rw [this]
    exact isDouble_two
  refine ⟨finite_one, hk0, hex, ?_⟩
  exact ((Multiply_Divide_doubles Example.one Example.empty Example.empty
    (Double.fin false 2)).2.1 finite_one rfl hk0 hex).2 _ (by simp [Double.le, Double.zero, Double.val])

theorem roundHalfEven_tie_odd (t : ℚ) (n : ℤ) (ht : t = n + 1 / 2) (hodd : n % 2 = 1) :
    roundHalfEven t = n + 1 := by
  have hf : ⌊t⌋ = n := by
    rw [Int.floor_eq_iff]
    constructor <;> linarith
  unfold roundHalfEven
  rw [hf]
  have h1 : ¬ (t - (n : ℚ) < 1 / 2) := by rw [ht]; norm_num
  have h2 : ¬ (1 / 2 < t - (n : ℚ)) := by rw [ht]; norm_num
  rw [if_neg h1, if_neg h2, if_neg (by omega)]

theorem roundHalfEven_of_gt (t : ℚ) (n : ℤ) (h1 : (n : ℚ) + 1 / 2 < t) (h2 : t < n + 1) :
    roundHalfEven t = n + 1 := by
  have hf : ⌊t⌋ = n := by
    rw [Int.floor_eq_iff]
    constructor <;> linarith
  unfold roundHalfEven
  rw [hf, if_neg (by linarith), if_pos (by linarith)]

/-- The product `3 * 0.1` lies halfway between two doubles and is rounded up. -/
theorem round_three_tenths (z : Bool) :
    round (3 * (3602879701896397 / (2 : ℚ) ^ 55)) z
      = Double.fin false (5404319552844596 / (2 : ℚ) ^ 54) := by
  have hpos : (0 : ℚ) < 3 * (3602879701896397 / (2 : ℚ) ^ 55) := by norm_num
  have habs := abs_of_pos hpos
  have h : roundMag (3 * (3602879701896397 / (2 : ℚ) ^ 55))
      = ((5404319552844595 + 1 : ℤ) : ℚ) * (2 : ℚ) ^ ((-2 : ℤ) - 52) := by
    apply roundMag_eval _ (-2) _ (by rw [habs]; norm_num) (by rw [habs]; norm_num)
      (by norm_num)
    apply roundHalfEven_tie_odd
    · rw [habs]; norm_num
    · norm_num
  unfold round
  rw [h]
  norm_num

/-- The quotient `(3 * 0.1) / 3` is rounded to the double above `0.1`. -/
theorem round_three_tenths_div (z : Bool) :
    round (5404319552844596 / (2 : ℚ) ^ 54 / 3) z
      = Double.fin false (7205759403792795 / (2 : ℚ) ^ 56) := by
  have hpos : (0 : ℚ) < 5404319552844596 / (2 : ℚ) ^ 54 / 3 := by norm_num
  have habs := abs_of_pos hpos
  have h : roundMag (5404319552844596 / (2 : ℚ) ^ 54 / 3)
      = ((7205759403792794 + 1 : ℤ) : ℚ) * (2 : ℚ) ^ ((-4 : ℤ) - 52) := by
    apply roundMag_eval _ (-4) _ (by rw [habs]; norm_num) (by rw [habs]; norm_num)
      (by norm_num)
    apply roundHalfEven_of_gt
    · rw [habs]; norm_num
    · rw [habs]; norm_num
  unfold round
  rw [h]
  norm_num

/-- The difference between that double and `0.1` is one unit in the last place,
`2^-56`. -/
theorem round_tenth_diff (z : Bool) :
    round (7205759403792795 / (2 : ℚ) ^ 56 - 3602879701896397 / (2 : ℚ) ^ 55) z
      = Double.fin false (1 / (2 : ℚ) ^ 56) := by
  have hv : (7205759403792795 / (2 : ℚ) ^ 56 - 3602879701896397 / (2 : ℚ) ^ 55)
      = 1 / (2 : ℚ) ^ 56 := by norm_num
  rw [hv]
  have hpos : (0 : ℚ) < 1 / (2 : ℚ) ^ 56 := by norm_num
  have habs := abs_of_pos hpos
  have h : roundMag (1 / (2 : ℚ) ^ 56)
      = ((2 ^ 52 : ℤ) : ℚ) * (2 : ℚ) ^ ((-56 : ℤ) - 52) := by
    apply roundMag_eval _ (-56) _ (by rw [habs]; norm_num) (by rw [habs]; norm_num)
      (by norm_num)
    have : |1 / (2 : ℚ) ^ 56| / (2 : ℚ) ^ ((-56 : ℤ) - 52) = ((2 ^ 52 : ℤ) : ℚ) := by
      rw [habs]; norm_num
    rw [this, roundHalfEven_intCast]
  unfold round
  rw [h]
  norm_num

/-- C13 fails as stated. With `a = [0.1]` and `k = 3` the product and the
quotient are rounded, `Multiply` and `Divide` leave `d2` one unit in the last
place above `a`, and `Equal(d2, a, 0)` is `false`. With `a = [2^1023]` and
`k = 2` the product overflows, `d = d2 = [inf]`, and `Equal(d2, a, eps)` is
`false` for `eps = 0` and for every finite `eps`. -/
theorem Multiply_Divide_fails :
    (Double.fin false 3).val ≠ 0 ∧
    Multiply Example.tenth (Double.fin false 3) Example.empty
      = JntArray.mk [Double.fin false (5404319552844596 / (2 : ℚ) ^ 54)] ∧
    Divide (JntArray.mk [Double.fin false (5404319552844596 / (2 : ℚ) ^ 54)])
        (Double.fin false 3) Example.empty
      = JntArray.mk [Double.fin false (7205759403792795 / (2 : ℚ) ^ 56)] ∧
    Equal (JntArray.mk [Double.fin false (7205759403792795 / (2 : ℚ) ^ 56)]) Example.tenth
      Double.zero = false ∧
    (Double.fin false 2).val ≠ 0 ∧
    Multiply Example.huge (Double.fin false 2) Example.empty
      = JntArray.mk [Double.inf false] ∧
    Divide (JntArray.mk [Double.inf false]) (Double.fin false 2) Example.empty
      = JntArray.mk [Double.inf false] ∧
    Equal (JntArray.mk [Double.inf false]) Example.huge Double.zero = false ∧
    (∀ eps : Double, (Double.mul Double.one.abs eps).isFinite = true →
      Equal (JntArray.mk [Double.inf false]) Example.huge eps = false) := by
  have hzero : Double.mul Double.one.abs Double.zero = Double.fin false 0 := by
    simp [Double.mul, Double.one, Double.zero, Double.abs, Double.val, round_zero]
  have hmul3 : (Double.fin false 3).mul (Double.fin false (3602879701896397 / (2 : ℚ) ^ 55))
      = Double.fin false (5404319552844596 / (2 : ℚ) ^ 54) := by
    simp only [Double.mul, Double.val, Bool.false_eq_true, if_false]
    exact round_three_tenths _
  have hdiv3 : (Double.fin false (5404319552844596 / (2 : ℚ) ^ 54)).div (Double.fin false 3)
      = Double.fin false (7205759403792795 / (2 : ℚ) ^ 56) := by
    have h3 : (3 : ℚ) ≠ 0 := by norm_num
    simp only [Double.div, if_neg h3, Double.val, Bool.false_eq_true, if_false]
    exact round_three_tenths_div _
  have hdiff : (Double.fin false (7205759403792795 / (2 : ℚ) ^ 56)).sub
      (Double.fin false (3602879701896397 / (2 : ℚ) ^ 55))
      = Double.fin false (1 / (2 : ℚ) ^ 56) := by
    simp only [Double.sub, Double.neg, Double.add, Double.val, Bool.false_eq_true, if_false,
      Bool.not_false, if_true, ← sub_eq_add_neg]
    exact round_tenth_diff _
  have hmul : (Double.fin false 2).mul (Double.fin false ((2 : ℚ) ^ (1023 : ℤ)))
      = Double.inf false := by
    simp only [Double.mul, Double.val, Bool.false_eq_true, if_false]
    have : (2 : ℚ) * (2 : ℚ) ^ (1023 : ℤ) = (2 : ℚ) ^ (1024 : ℤ) := by norm_num
    rw [this]
    exact round_two_pow_1024 _
  have hall : ∀ eps : Double, (Double.mul Double.one.abs eps).isFinite = true →
      Equal (JntArray.mk [Double.inf false]) Example.huge eps = false := by
    intro eps hfin
    obtain ⟨s, m, hm⟩ := exists_fin_of_isFinite _ hfin
    rw [Example.huge, Equal_singleton, hm]
    simp [Double.sub, Double.neg, Double.add, Double.abs, Double.le]
  refine ⟨by simp [Double.val], ?_, ?_, ?_, by simp [Double.val], ?_, ?_, ?_, hall⟩
  · simp only [Multiply, Example.tenth, Example.empty, assign, vscale, List.map_cons,
      List.map_nil]
    rw [hmul3]
  · simp only [Divide, Example.empty, assign, vdiv, List.map_cons, List.map_nil]
    rw [hdiv3]
  · have hpos : (0 : ℚ) < 1 / (2 : ℚ) ^ 56 := by positivity
    rw [Example.tenth, Equal_singleton, hdiff, hzero, Double.abs, le_fin_fin,
      decide_eq_false_iff_not]
    exact not_le.mpr hpos
  · simp only [Multiply, Example.huge, Example.empty, assign, vscale, List.map_cons,
      List.map_nil]
    rw [hmul]
  · simp [Divide, Example.empty, assign, vdiv, Double.div]
  · apply hall
    simp [Double.mul, Double.one, Double.zero, Double.abs, Double.val, round_zero,
      Double.isFinite]

end IEEE

end KDL
